import Mathlib

/-!
Shallow embedding of the `@prodo-ai/js-caching` cache engine (`src/cache.js`,
given as `src/unnamed/part_000`, with its types in `part_001`).

Modelling conventions:
* Timestamps are `Int` (the injected `clock` returns numbers).
* The store (a JS object keyed by hash strings) is a key-unique association
  list in insertion order; `store[hash] = v` keeps the position of an existing
  key, `delete store[hash]` removes it.
* A `destroy` callback is modelled by its observable behaviour during a trim
  pass: `none` = no callback, `some true` = resolves, `some false` =
  throws/rejects.
* The factory `create` is an oracle `K → Option (V × Option Bool)`:
  `none` = the factory throws/rejects, `some (v, d)` = it produces
  `{value: v, destroy: d}`.
* The engine runs on single-threaded cooperative concurrency.  Code paths
  with no logically-concurrent caller are embedded as pure sequential
  functions (every `await` resumes immediately and `initializing` is observed
  empty).  The concurrent lookup/creation protocol of
  `getOrInsertCachedValue` is additionally embedded as a small-step machine
  (`GStep`) whose atomic steps are exactly the synchronous segments between
  `await` suspension points of the source.
-/

namespace Caching

/-- One cached entry (`CachedValue` in `types.js`): the stored value, the
insertion timestamp (set once at creation), the last-access `timestamp`
(refreshed on every successful fetch), the reference count `locked`, and the
optional destroy callback (modelled by its behaviour). -/
structure CachedValue (V : Type) where
  value : V
  insertionTimestamp : Int
  timestamp : Int
  locked : Nat
  destroy : Option Bool
deriving Repr, DecidableEq

/-- The store: hash → entry, a key-unique association list in insertion
order (a JS object with string keys). -/
abbrev Store (V : Type) := List (String × CachedValue V)

/-- Cache configuration (`CacheOptions`): the optional entry-count bound
`size` and the optional TTL `expiry` (the source's `expiryInMilliseconds`);
`none` means the option is absent. -/
structure CacheOptions where
  size : Option Nat
  expiry : Option Int
deriving Repr, DecidableEq

/-- `validateOptions` requires `options.size > 0` when present; a present
`expiry` is a positive duration (`duration(n, UNIT)` of js-timing). -/
def validOptions (cfg : CacheOptions) : Bool :=
  (match cfg.size with
   | some s => decide (0 < s)
   | none => true) &&
  (match cfg.expiry with
   | some e => decide (0 < e)
   | none => true)

/-- `store[hash]` lookup. -/
def storeLookup {V : Type} : Store V → String → Option (CachedValue V)
  | [], _ => none
  | (k, cv) :: rest, h => if k = h then some cv else storeLookup rest h

/-- `hash in store`. -/
def storeMem {V : Type} (s : Store V) (h : String) : Bool :=
  (storeLookup s h).isSome

/-- `store[hash] = cv`: overwrite in place when the key exists (JS objects
keep the original key position), append otherwise. -/
def storeSet {V : Type} : Store V → String → CachedValue V → Store V
  | [], h, cv => [(h, cv)]
  | (k, old) :: rest, h, cv =>
    if k = h then (k, cv) :: rest else (k, old) :: storeSet rest h cv

/-- `delete store[hash]`. -/
def storeDelete {V : Type} (s : Store V) (h : String) : Store V :=
  s.filter (fun p => p.1 ≠ h)

/-- `currentSize = () => _.size(store)`. -/
def currentSize {V : Type} (s : Store V) : Nat := s.length

/-- `isExpired`: `expiryInMilliseconds ? store[hash].insertionTimestamp +
expiryInMilliseconds < now : false`.  A zero duration makes
`expiryInMilliseconds` falsy, hence the `e ≠ 0` guard.  The source only
evaluates it for hashes present in the store; the `none` branch returns
`false` to keep the function total. -/
def isExpired {V : Type} (cfg : CacheOptions) (s : Store V) (h : String)
    (now : Int) : Bool :=
  match cfg.expiry with
  | some e =>
    if e ≠ 0 then
      (match storeLookup s h with
       | some cv => decide (cv.insertionTimestamp + e < now)
       | none => false)
    else false
  | none => false

/-- Insert one pair into a list already sorted by ascending `timestamp`,
before the first strictly greater element (the stable placement used by
lodash's `sortBy`). -/
def insertByTimestamp {V : Type} (x : String × CachedValue V) :
    Store V → Store V
  | [] => [x]
  | y :: ys =>
    if x.2.timestamp ≤ y.2.timestamp then x :: y :: ys
    else y :: insertByTimestamp x ys

/-- `_(store).toPairs().sortBy(([, value]) => value.timestamp)`: stable sort
of the store's pairs by ascending last-access timestamp. -/
def sortByTimestamp {V : Type} : Store V → Store V
  | [] => []
  | x :: xs => insertByTimestamp x (sortByTimestamp xs)

/-- The size-based eviction candidates of `trim`: sort by `timestamp`,
`reverse`, `slice(options.size)`, keep the hashes; `[]` when no `size`
bound is configured. -/
def oldestValues {V : Type} (cfg : CacheOptions) (s : Store V) :
    List String :=
  match cfg.size with
  | some size => (((sortByTimestamp s).reverse).drop size).map Prod.fst
  | none => []

/-- The expiry-based eviction candidates of `trim`:
`Object.keys(store).filter(hash => isExpired(hash, now))`; `[]` when no
`expiry` is configured. -/
def expiredValues {V : Type} (cfg : CacheOptions) (s : Store V)
    (now : Int) : List String :=
  match cfg.expiry with
  | some _ => (s.map Prod.fst).filter (fun h => isExpired cfg s h now)
  | none => []

/-- `oldestValues.concat(expiredValues)`: the combined candidate list (a
hash may occur once from either check, so duplicates are possible). -/
def trimCandidates {V : Type} (cfg : CacheOptions) (s : Store V)
    (now : Int) : List String :=
  oldestValues cfg s ++ expiredValues cfg s now

/-- Result of a trim pass: the surviving store, the destroy invocations in
call order, and whether the pass rejected (`Promise.all` observed a thrown
error outside a handler's try/catch). -/
structure TrimResult (V : Type) where
  store : Store V
  invocations : List String
  errored : Bool
deriving Repr, DecidableEq

/-- State threaded through the synchronous phase of the trim handlers. -/
structure TrimPhaseA (V : Type) where
  store : Store V
  suspended : List (String × Bool)
  invocations : List String
  errored : Bool
deriving Repr, DecidableEq

/-- The synchronous prefix of one `async hash => …` handler in `trim`
(`Promise.all` starts the handlers in candidate order and each runs
synchronously up to its first `await`):
reading `store[hash].locked` on a deleted hash throws a TypeError outside
the try/catch (the handler's promise rejects, so the whole pass rejects);
a locked entry is skipped; without a destroy callback the deletion happens
synchronously; with one, the callback is invoked and the handler suspends
on its `await`. -/
def trimHandlerSync {V : Type} (acc : TrimPhaseA V) (h : String) :
    TrimPhaseA V :=
  match storeLookup acc.store h with
  | none => { acc with errored := true }
  | some cv =>
    if cv.locked > 0 then acc
    else
      match cv.destroy with
      | none => { acc with store := storeDelete acc.store h }
      | some b =>
        { acc with
          suspended := acc.suspended ++ [(h, b)],
          invocations := acc.invocations ++ [h] }

/-- The continuation of a suspended handler after its destroy callback
settles: on success the hash is deleted, on failure the catch swallows the
error and the entry is left in place. -/
def trimHandlerResume {V : Type} (s : Store V) (hb : String × Bool) :
    Store V :=
  if hb.2 then storeDelete s hb.1 else s

/-- `trim(now)`: compute both candidate lists, then attempt every removal.
The deterministic microtask order of the source (immediately-settled destroy
promises) is: all synchronous handler prefixes in candidate order, then all
suspended continuations in the same order. -/
def trim {V : Type} (cfg : CacheOptions) (s : Store V) (now : Int) :
    TrimResult V :=
  let a := (trimCandidates cfg s now).foldl trimHandlerSync ⟨s, [], [], false⟩
  ⟨a.suspended.foldl trimHandlerResume a.store, a.invocations, a.errored⟩

/-- `shrinkCache(now)`: a no-op when a pass is already running
(`shrinkLock`) or when neither bound can evict anything; otherwise it runs
`trim` and, having no catch, lets a rejection of `trim` propagate to its own
awaiter. -/
def shrinkCache {V : Type} (shrinkLock : Bool) (cfg : CacheOptions)
    (s : Store V) (now : Int) : TrimResult V :=
  if shrinkLock then ⟨s, [], false⟩
  else
    if (match cfg.size with
        | some size => decide (size < currentSize s)
        | none => false) || cfg.expiry.isSome
    then trim cfg s now
    else ⟨s, [], false⟩

/-- Outcome of one sequential `getOrInsertCachedValue` call: the cached
value handed to the caller (`none` when the call rejects), the resulting
store, the destroy invocations of the triggered trim, and how many times
the factory was invoked. -/
structure SeqOutcome (V : Type) where
  result : Option (CachedValue V)
  store : Store V
  invocations : List String
  factoryCalls : Nat
deriving Repr, DecidableEq

/-- `addToStore(hash, key, now)`, sequential execution: mark the hash
in-flight, invoke the factory, publish the entry, await `shrinkCache(now)`
(whose rejection propagates), and always clear the in-flight mark.  A
factory failure rejects the call with nothing published. -/
def addToStore {K V : Type} (cfg : CacheOptions)
    (create : K → Option (V × Option Bool)) (s : Store V) (h : String)
    (key : K) (now : Int) : SeqOutcome V :=
  match create key with
  | none => ⟨none, s, [], 1⟩
  | some (v, d) =>
    let cachedValue : CachedValue V := ⟨v, now, now, 0, d⟩
    let t := shrinkCache false cfg (storeSet s h cachedValue) now
    if t.errored then ⟨none, t.store, t.invocations, 1⟩
    else ⟨some cachedValue, t.store, t.invocations, 1⟩

/-- `getOrInsertCachedValue(key, hash, now)` under sequential execution
(no logically-concurrent caller): `initializing` is observed empty, so the
in-flight branches cannot be taken.  A missing or expired entry is
(re)created via `addToStore`; otherwise the entry's last-access timestamp
is refreshed and the entry returned.  The impossible `none` fallback keeps
the function total. -/
def getOrInsertCachedValue {K V : Type} (cfg : CacheOptions)
    (create : K → Option (V × Option Bool)) (hasher : K → String)
    (s : Store V) (key : K) (now : Int) : SeqOutcome V :=
  let h := hasher key
  if !(storeMem s h) || isExpired cfg s h now then
    addToStore cfg create s h key now
  else
    match storeLookup s h with
    | some cv =>
      let cv' := { cv with timestamp := now }
      ⟨some cv', storeSet s h cv', [], 0⟩
    | none => ⟨none, s, [], 0⟩

/-- `cachedValue.locked++` / `cachedValue.locked--`: adjust the lock count
of the entry at a hash.  The source mutates the entry object it captured;
this slot-level update coincides with it whenever no trim or expiry
replacement has detached the object from the store (the configurations the
lock theorems are stated for). -/
def lockAdjust {V : Type} (s : Store V) (h : String) (f : Nat → Nat) :
    Store V :=
  match storeLookup s h with
  | some cv => storeSet s h { cv with locked := f cv.locked }
  | none => s

/-- The store-observable lock count at a hash (`0` when absent); the
measure the lock-balance properties are stated in. -/
def lockedOrZero {V : Type} (s : Store V) (h : String) : Nat :=
  match storeLookup s h with
  | some cv => cv.locked
  | none => 0

/-- Outcome of a `getWith` call: whether it resolved, and the store. -/
structure GetWithOutcome (V : Type) where
  settledOk : Bool
  store : Store V
deriving Repr, DecidableEq

/-- `getWith(key, transformer)`, sequential execution: fetch/create the
entry (a rejection propagates with no lock touched), increment its lock
count, run the transformer (outcome given by the oracle `transformerOk`),
and decrement in the `finally` regardless of that outcome. -/
def getWith {K V : Type} (cfg : CacheOptions)
    (create : K → Option (V × Option Bool)) (hasher : K → String)
    (s : Store V) (key : K) (now : Int) (transformerOk : Bool) :
    GetWithOutcome V :=
  let o := getOrInsertCachedValue cfg create hasher s key now
  match o.result with
  | none => ⟨false, o.store⟩
  | some _ =>
    let s1 := lockAdjust o.store (hasher key) (· + 1)
    let s2 := lockAdjust s1 (hasher key) (· - 1)
    ⟨transformerOk, s2⟩

/-- The observable state of one per-key handler of
`getMultiple`/`getMultipleWith` after its synchronous prefix: its fetch
resolved with a value, it is polling for an in-flight creation of a hash,
or its fetch rejected. -/
inductive SlotState (V : Type) where
  | val (h : String) (v : V)
  | waitFor (h : String) (now : Int)
  | failedS
deriving Repr, DecidableEq

/-- State threaded through the synchronous prefixes of the per-key
handlers: the store, the `initializing` set, the creations awaiting their
factory (hash, published entry or `none` on factory failure, captured
`now`), and the per-key slots in input order. -/
structure FetchAcc (V : Type) where
  store : Store V
  initSet : List String
  pending : List (String × Option (CachedValue V) × Int)
  slots : List (SlotState V)
deriving Repr, DecidableEq

/-- The synchronous prefix of one handler `async key => …`: it computes the
hash, reads the clock, and runs `getOrInsertCachedValue` up to its first
suspension.  An in-flight hash sends the handler polling; a present,
unexpired entry gets its timestamp refreshed and resolves at once; otherwise
the handler marks the hash in-flight and invokes the factory, deferring the
publication (or, on factory failure, just the in-flight cleanup) to its
continuation. -/
def fetchStart {K V : Type} (cfg : CacheOptions)
    (create : K → Option (V × Option Bool)) (hasher : K → String)
    (acc : FetchAcc V) (kn : K × Int) : FetchAcc V :=
  let h := hasher kn.1
  let now := kn.2
  if h ∈ acc.initSet then
    { acc with slots := acc.slots ++ [.waitFor h now] }
  else if storeMem acc.store h && !(isExpired cfg acc.store h now) then
    match storeLookup acc.store h with
    | some cv =>
      { acc with
        store := storeSet acc.store h { cv with timestamp := now },
        slots := acc.slots ++ [.val h cv.value] }
    | none => { acc with slots := acc.slots ++ [.failedS] }
  else
    match create kn.1 with
    | none =>
      { acc with
        initSet := acc.initSet ++ [h],
        pending := acc.pending ++ [(h, none, now)],
        slots := acc.slots ++ [.failedS] }
    | some (v, d) =>
      { acc with
        initSet := acc.initSet ++ [h],
        pending := acc.pending ++ [(h, some ⟨v, now, now, 0, d⟩, now)],
        slots := acc.slots ++ [.val h v] }

/-- The continuation of one creating handler: publish the entry (then
`await shrinkCache(now)`) and clear the in-flight mark — or, when the
factory failed, only clear the mark (the `finally` of `addToStore`). -/
def publishEntry {V : Type} (cfg : CacheOptions)
    (st : Store V × List String)
    (p : String × Option (CachedValue V) × Int) : Store V × List String :=
  match p with
  | (h, some cv, now) =>
    ((shrinkCache false cfg (storeSet st.1 h cv) now).store,
      st.2.filter (· ≠ h))
  | (h, none, _) => (st.1, st.2.filter (· ≠ h))

/-- Reorder a list by a completion schedule: the elements are consumed in
the order named by `π` (invalid indices name no element).  Instantiated
with `List.range l.length` it is the identity schedule. -/
def permuteBy {A : Type} (π : List Nat) (l : List A) : List A :=
  π.filterMap (fun i => l.get? i)

/-- Wake the polling handlers once the in-flight marks have cleared: a
waiter re-reads the store, and on a hit refreshes the timestamp and
resolves with the found value; a miss would retry the whole lookup
(`failedS` stands for that divergence from the resolved path; the theorems
are stated where it cannot occur). -/
def resolveWaiters {V : Type} :
    Store V → List (SlotState V) → Store V × List (SlotState V)
  | s, [] => (s, [])
  | s, .waitFor h now :: rest =>
    (match storeLookup s h with
     | some cv =>
       let r := resolveWaiters (storeSet s h { cv with timestamp := now }) rest
       (r.1, .val h cv.value :: r.2)
     | none =>
       let r := resolveWaiters s rest
       (r.1, .failedS :: r.2))
  | s, sl :: rest =>
    let r := resolveWaiters s rest
    (r.1, sl :: r.2)

/-- Run all per-key fetches: synchronous prefixes in input order, creating
continuations in the completion order `π`, then the polling waiters.
`keysAndNows` pairs every key with the clock value its handler reads. -/
def fetchMany {K V : Type} (cfg : CacheOptions)
    (create : K → Option (V × Option Bool)) (hasher : K → String)
    (s : Store V) (keysAndNows : List (K × Int)) (π : List Nat) :
    Store V × List (SlotState V) :=
  let a := keysAndNows.foldl (fetchStart cfg create hasher) ⟨s, [], [], []⟩
  let p := (permuteBy π a.pending).foldl (publishEntry cfg) (a.store, a.initSet)
  resolveWaiters p.1 a.slots

/-- Pair the input keys with their resolved values, by input position (the
`map` inside `Promise.all` of the source); `none` if any fetch failed. -/
def assemble {K V : Type} : List K → List (SlotState V) → Option (List (K × V))
  | [], [] => some []
  | k :: ks, .val _ v :: ss => (assemble ks ss).map (fun l => (k, v) :: l)
  | _ :: _, _ => none
  | [], _ :: _ => none

/-- `getMultiple(keys)`: parallel fetch, no locking; the resulting
key/value pairs are assembled by input position. -/
def getMultiple {K V : Type} (cfg : CacheOptions)
    (create : K → Option (V × Option Bool)) (hasher : K → String)
    (s : Store V) (keysAndNows : List (K × Int)) (π : List Nat) :
    Store V × Option (List (K × V)) :=
  let r := fetchMany cfg create hasher s keysAndNows π
  (r.1, assemble (keysAndNows.map Prod.fst) r.2)

/-- The hashes of the handlers whose fetch resolved — exactly the entries
whose `locked` the source increments. -/
def slotHashes {V : Type} : List (SlotState V) → List String
  | [] => []
  | .val h _ :: rest => h :: slotHashes rest
  | _ :: rest => slotHashes rest

/-- Whether some handler's fetch rejected (making `Promise.all` reject). -/
def anyFailed {V : Type} (slots : List (SlotState V)) : Bool :=
  slots.any (fun sl => match sl with | .failedS => true | _ => false)

/-- Outcome of a `getMultipleWith` call: the store, the ordered key/value
list handed to the transformer (`none` when it was never invoked), whether
the fetch phase rejected, and whether the call resolved. -/
structure MultiWithOutcome (K V : Type) where
  store : Store V
  transformerArg : Option (List (K × V))
  fetchFailed : Bool
  settledOk : Bool
deriving Repr, DecidableEq

/-- `getMultipleWith(keys, transformer)`: every resolved handler increments
its entry's lock count.  If any fetch rejected, `await Promise.all` throws
before the try/finally is entered, so no decrement runs; otherwise the
transformer receives the input-ordered pairs and the `finally` decrements
every lock count regardless of the transformer's outcome. -/
def getMultipleWith {K V : Type} (cfg : CacheOptions)
    (create : K → Option (V × Option Bool)) (hasher : K → String)
    (s : Store V) (keysAndNows : List (K × Int)) (π : List Nat)
    (transformerOk : Bool) : MultiWithOutcome K V :=
  let r := fetchMany cfg create hasher s keysAndNows π
  let hs := slotHashes r.2
  let sInc := hs.foldl (fun st h => lockAdjust st h (· + 1)) r.1
  if anyFailed r.2 then ⟨sInc, none, true, false⟩
  else
    let arg := assemble (keysAndNows.map Prod.fst) r.2
    let sDec := hs.foldl (fun st h => lockAdjust st h (· - 1)) sInc
    ⟨sDec, arg, false, transformerOk⟩

/-- The state of one logically-concurrent `get(key)` caller, between the
suspension points of `getOrInsertCachedValue`.  `notIssued` holds the clock
value the call captures when issued; `creating` remembers which factory
invocation it awaits; `trimming` has published its entry and awaits
`shrinkCache`; `waiting` polls `waitUntil`; `woken` observed the in-flight
mark clear and is about to re-read the store; `doneT`/`failedT` are the
settled call. -/
inductive GThread (V : Type) where
  | notIssued (now : Int)
  | creating (now : Int) (idx : Nat)
  | trimming (now : Int) (v : V)
  | waiting (now : Int)
  | woken (now : Int)
  | doneT (v : V)
  | failedT
deriving Repr, DecidableEq

/-- Whether a thread has not yet run its synchronous issuance segment. -/
def isNotIssued {V : Type} : GThread V → Bool
  | .notIssued _ => true
  | _ => false

/-- Whether a thread's call has settled (resolved or rejected). -/
def settledThread {V : Type} : GThread V → Bool
  | .doneT _ => true
  | .failedT => true
  | _ => false

/-- System state for `M` logically-concurrent `get` calls of one key with
hash `h`: the store, the in-flight mark for `h`, the callers, and the
number of factory invocations so far. -/
structure GetSys (V : Type) (M : Nat) where
  store : Store V
  initFlag : Bool
  threads : Fin M → GThread V
  factoryCalls : Nat

/-- All calls have been issued.  Issuing runs synchronously at call time,
so when the calls are issued before any completes, every issuance segment
runs before any handler continuation — non-issuance steps are enabled only
afterwards. -/
def allIssued {V : Type} {M : Nat} (S : GetSys V M) : Prop :=
  ∀ i, isNotIssued (S.threads i) = false

instance {V : Type} {M : Nat} (S : GetSys V M) : Decidable (allIssued S) :=
  inferInstanceAs (Decidable (∀ i, isNotIssued (S.threads i) = false))

/-- One atomic step of the concurrent lookup/creation protocol: each
constructor is one synchronous segment of `getOrInsertCachedValue` /
`addToStore` between suspension points, for the caller `i`.  `fres n` is
the outcome of the `n`-th factory invocation. -/
inductive GStep {V : Type} {M : Nat} (cfg : CacheOptions)
    (fres : Nat → Option (V × Option Bool)) (h : String) :
    GetSys V M → GetSys V M → Prop where
  | issueCreate (S : GetSys V M) (i : Fin M) (now : Int)
      (ht : S.threads i = .notIssued now) (hf : S.initFlag = false)
      (hc : (!(storeMem S.store h) || isExpired cfg S.store h now) = true) :
      GStep cfg fres h S
        ⟨S.store, true,
          Function.update S.threads i (.creating now S.factoryCalls),
          S.factoryCalls + 1⟩
  | issueWait (S : GetSys V M) (i : Fin M) (now : Int)
      (ht : S.threads i = .notIssued now) (hf : S.initFlag = true) :
      GStep cfg fres h S
        { S with threads := Function.update S.threads i (.waiting now) }
  | issueHit (S : GetSys V M) (i : Fin M) (now : Int) (cv : CachedValue V)
      (ht : S.threads i = .notIssued now) (hf : S.initFlag = false)
      (hm : storeLookup S.store h = some cv)
      (he : isExpired cfg S.store h now = false) :
      GStep cfg fres h S
        { S with
          store := storeSet S.store h { cv with timestamp := now },
          threads := Function.update S.threads i (.doneT cv.value) }
  | resolveFactory (S : GetSys V M) (i : Fin M) (now : Int) (idx : Nat)
      (v : V) (d : Option Bool) (hall : allIssued S)
      (ht : S.threads i = .creating now idx) (hres : fres idx = some (v, d)) :
      GStep cfg fres h S
        { S with
          store := storeSet S.store h ⟨v, now, now, 0, d⟩,
          threads := Function.update S.threads i (.trimming now v) }
  | rejectFactory (S : GetSys V M) (i : Fin M) (now : Int) (idx : Nat)
      (hall : allIssued S) (ht : S.threads i = .creating now idx)
      (hres : fres idx = none) :
      GStep cfg fres h S
        ⟨S.store, false, Function.update S.threads i .failedT,
          S.factoryCalls⟩
  | trimStep (S : GetSys V M) (i : Fin M) (now : Int) (v : V)
      (hall : allIssued S) (ht : S.threads i = .trimming now v) :
      GStep cfg fres h S
        ⟨(shrinkCache false cfg S.store now).store, false,
          Function.update S.threads i
            (if (shrinkCache false cfg S.store now).errored then .failedT
             else .doneT v),
          S.factoryCalls⟩
  | wake (S : GetSys V M) (i : Fin M) (now : Int) (hall : allIssued S)
      (ht : S.threads i = .waiting now) (hf : S.initFlag = false) :
      GStep cfg fres h S
        { S with threads := Function.update S.threads i (.woken now) }
  | wokenHit (S : GetSys V M) (i : Fin M) (now : Int) (cv : CachedValue V)
      (hall : allIssued S) (ht : S.threads i = .woken now)
      (hm : storeLookup S.store h = some cv) :
      GStep cfg fres h S
        { S with
          store := storeSet S.store h { cv with timestamp := now },
          threads := Function.update S.threads i (.doneT cv.value) }
  | wokenRetryCreate (S : GetSys V M) (i : Fin M) (now : Int)
      (hall : allIssued S) (ht : S.threads i = .woken now)
      (hm : storeLookup S.store h = none) (hf : S.initFlag = false) :
      GStep cfg fres h S
        ⟨S.store, true,
          Function.update S.threads i (.creating now S.factoryCalls),
          S.factoryCalls + 1⟩
  | wokenRetryWait (S : GetSys V M) (i : Fin M) (now : Int)
      (hall : allIssued S) (ht : S.threads i = .woken now)
      (hm : storeLookup S.store h = none) (hf : S.initFlag = true) :
      GStep cfg fres h S
        { S with threads := Function.update S.threads i (.waiting now) }

/-- Reachability under the step relation. -/
def GReach {V : Type} {M : Nat} (cfg : CacheOptions)
    (fres : Nat → Option (V × Option Bool)) (h : String) :
    GetSys V M → GetSys V M → Prop :=
  Relation.ReflTransGen (GStep cfg fres h)

/-- The initial system for the single-flight scenario: no entry for the
hash, no creation in flight, caller `i` will capture clock value `ns i`. -/
def initSys {V : Type} {M : Nat} (ns : Fin M → Int) : GetSys V M :=
  ⟨[], false, fun i => .notIssued (ns i), 0⟩

/-- The clock value a still-running thread captured at issuance, if any. -/
def nowOf {V : Type} : GThread V → Option Int
  | .notIssued n => some n
  | .creating n _ => some n
  | .trimming n _ => some n
  | .waiting n => some n
  | .woken n => some n
  | .doneT _ => none
  | .failedT => none

/-- Phase invariant of the single-flight episode over an initially empty
store with a succeeding factory: issuance (nothing happened yet), one
creator awaiting the first factory invocation, the entry published while
the creator awaits its trim, and the published phase in which the in-flight
mark is clear and threads drain to `doneT v0`. -/
def C1Inv {V : Type} {M : Nat} (h : String) (v0 : V) (S : GetSys V M) :
    Prop :=
  (S.store = [] ∧ S.initFlag = false ∧ S.factoryCalls = 0 ∧
    ∀ i, ∃ n, S.threads i = GThread.notIssued n) ∨
  (S.store = [] ∧ S.initFlag = true ∧ S.factoryCalls = 1 ∧
    ∃ j n, S.threads j = GThread.creating n 0 ∧
      ∀ i, i ≠ j →
        (∃ m, S.threads i = GThread.notIssued m) ∨
        (∃ m, S.threads i = GThread.waiting m)) ∨
  (∃ cv : CachedValue V, S.store = [(h, cv)] ∧ cv.value = v0 ∧
    S.initFlag = true ∧ S.factoryCalls = 1 ∧
    ∃ j, S.threads j = GThread.trimming cv.insertionTimestamp v0 ∧
      ∀ i, i ≠ j → ∃ m, S.threads i = GThread.waiting m) ∨
  (∃ cv : CachedValue V, S.store = [(h, cv)] ∧ cv.value = v0 ∧
    S.initFlag = false ∧ S.factoryCalls = 1 ∧
    ∀ i, (∃ m, S.threads i = GThread.waiting m) ∨
      (∃ m, S.threads i = GThread.woken m) ∨
      S.threads i = GThread.doneT v0)

/-! ### Basic store lemmas -/

theorem storeLookup_delete_ne {V : Type} (s : Store V) (x h : String)
    (hne : x ≠ h) : storeLookup (storeDelete s h) x = storeLookup s x := by
  induction s with
  | nil => rfl
  | cons p rest ih =>
    obtain ⟨k, cv⟩ := p
    by_cases hk : k = h
    · subst hk
      have hkx : k ≠ x := fun hh => hne hh.symm
      simp [storeDelete, storeLookup, List.filter_cons, hkx]
      simpa [storeDelete] using ih
    · by_cases hkx : k = x
      · subst hkx
        simp [storeDelete, storeLookup, List.filter_cons, hk]
      · simp only [storeDelete, List.filter_cons, ne_eq, decide_not] at ih ⊢
        simp [storeLookup, hk, hkx, ih]

theorem storeLookup_set_self {V : Type} (s : Store V) (h : String)
    (cv : CachedValue V) : storeLookup (storeSet s h cv) h = some cv := by
  induction s with
  | nil => simp [storeSet, storeLookup]
  | cons p rest ih =>
    obtain ⟨k, old⟩ := p
    by_cases hk : k = h
    · subst hk; simp [storeSet, storeLookup]
    · simp [storeSet, hk, storeLookup, ih]

theorem storeLookup_set_ne {V : Type} (s : Store V) (h x : String)
    (cv : CachedValue V) (hne : x ≠ h) :
    storeLookup (storeSet s h cv) x = storeLookup s x := by
  induction s with
  | nil => simp [storeSet, storeLookup, Ne.symm hne]
  | cons p rest ih =>
    obtain ⟨k, old⟩ := p
    by_cases hk : k = h
    · subst hk
      have hkx : k ≠ x := fun hh => hne hh.symm
      simp [storeSet, storeLookup, hkx]
    · by_cases hkx : k = x
      · subst hkx; simp [storeSet, hk, storeLookup]
      · simp [storeSet, hk, storeLookup, hkx, ih]

/-! ### Trim-pass lemmas -/

theorem trimHandlerSync_locked {V : Type} (acc : TrimPhaseA V) (c x : String)
    (cv : CachedValue V) (hx : storeLookup acc.store x = some cv)
    (hl : 0 < cv.locked) (hs : ∀ b, (x, b) ∉ acc.suspended)
    (hi : x ∉ acc.invocations) :
    storeLookup (trimHandlerSync acc c).store x = some cv ∧
    (∀ b, (x, b) ∉ (trimHandlerSync acc c).suspended) ∧
    x ∉ (trimHandlerSync acc c).invocations := by
  unfold trimHandlerSync
  cases hcv : storeLookup acc.store c with
  | none => exact ⟨hx, hs, hi⟩
  | some ccv =>
    dsimp only
    by_cases hcx : c = x
    · subst hcx
      rw [hx] at hcv
      obtain rfl : cv = ccv := by injection hcv
      rw [if_pos hl]
      exact ⟨hx, hs, hi⟩
    · by_cases hlc : ccv.locked > 0
      · rw [if_pos hlc]
        exact ⟨hx, hs, hi⟩
      · rw [if_neg hlc]
        cases hd : ccv.destroy with
        | none =>
          refine ⟨?_, hs, hi⟩
          rw [storeLookup_delete_ne acc.store x c fun hh => hcx hh.symm]
          exact hx
        | some b =>
          refine ⟨hx, ?_, ?_⟩
          · intro b' hb'
            rcases List.mem_append.mp hb' with hmem | hmem
            · exact hs b' hmem
            · have heq : (x, b') = (c, b) := List.mem_singleton.mp hmem
              exact hcx (congrArg Prod.fst heq).symm
          · intro hmem
            rcases List.mem_append.mp hmem with hmem | hmem
            · exact hi hmem
            · exact hcx (List.mem_singleton.mp hmem).symm

theorem foldA_locked {V : Type} (l : List String) (acc : TrimPhaseA V)
    (x : String) (cv : CachedValue V)
    (hx : storeLookup acc.store x = some cv) (hl : 0 < cv.locked)
    (hs : ∀ b, (x, b) ∉ acc.suspended) (hi : x ∉ acc.invocations) :
    storeLookup (l.foldl trimHandlerSync acc).store x = some cv ∧
    (∀ b, (x, b) ∉ (l.foldl trimHandlerSync acc).suspended) ∧
    x ∉ (l.foldl trimHandlerSync acc).invocations := by
  induction l generalizing acc with
  | nil => exact ⟨hx, hs, hi⟩
  | cons c rest ih =>
    obtain ⟨h1, h2, h3⟩ := trimHandlerSync_locked acc c x cv hx hl hs hi
    exact ih (trimHandlerSync acc c) h1 h2 h3

theorem foldB_lookup_ne {V : Type} (l : List (String × Bool)) (s : Store V)
    (x : String) (hnd : ∀ b, (x, b) ∉ l) :
    storeLookup (l.foldl trimHandlerResume s) x = storeLookup s x := by
  induction l generalizing s with
  | nil => rfl
  | cons hb rest ih =>
    have hx1 : hb.1 ≠ x := by
      intro hh
      exact hnd hb.2 (by simp [← hh])
    have hstep : storeLookup (trimHandlerResume s hb) x = storeLookup s x := by
      unfold trimHandlerResume
      by_cases hb2 : hb.2
      · simp [hb2, storeLookup_delete_ne s x hb.1 fun hh => hx1 hh.symm]
      · simp [hb2]
    rw [List.foldl_cons, ih _ fun b hb' => hnd b (List.mem_cons_of_mem _ hb'),
      hstep]

/-- Core of claim C2: a trim pass never removes an entry whose lock count is
positive and never invokes its destroy callback. -/
theorem trim_preserves_locked {V : Type} (cfg : CacheOptions) (s : Store V)
    (now : Int) (x : String) (cv : CachedValue V)
    (hm : storeLookup s x = some cv) (hl : 0 < cv.locked) :
    storeLookup (trim cfg s now).store x = some cv ∧
    x ∉ (trim cfg s now).invocations := by
  unfold trim
  obtain ⟨h1, h2, h3⟩ :=
    foldA_locked (trimCandidates cfg s now) ⟨s, [], [], false⟩ x cv hm hl
      (by simp) (by simp)
  exact ⟨by rw [foldB_lookup_ne _ _ x h2]; exact h1, h3⟩

theorem shrinkCache_preserves_locked {V : Type} (lock : Bool)
    (cfg : CacheOptions) (s : Store V) (now : Int) (x : String)
    (cv : CachedValue V) (hm : storeLookup s x = some cv)
    (hl : 0 < cv.locked) :
    storeLookup (shrinkCache lock cfg s now).store x = some cv ∧
    x ∉ (shrinkCache lock cfg s now).invocations := by
  unfold shrinkCache
  by_cases hlk : lock
  · simp [hlk, hm]
  · simp only [hlk, if_false, Bool.false_eq_true]
    split
    · exact trim_preserves_locked cfg s now x cv hm hl
    · exact ⟨hm, by simp⟩

/-! ### Sorting lemmas for the size-based eviction candidates -/

theorem insertByTimestamp_perm {V : Type} (x : String × CachedValue V)
    (l : Store V) : (insertByTimestamp x l).Perm (x :: l) := by
  induction l with
  | nil => exact List.Perm.refl _
  | cons y ys ih =>
    unfold insertByTimestamp
    by_cases hc : x.2.timestamp ≤ y.2.timestamp
    · rw [if_pos hc]
    · rw [if_neg hc]
      exact (ih.cons y).trans (List.Perm.swap x y ys)

theorem sortByTimestamp_perm {V : Type} (l : Store V) :
    (sortByTimestamp l).Perm l := by
  induction l with
  | nil => exact List.Perm.refl _
  | cons x xs ih => exact (insertByTimestamp_perm x _).trans (ih.cons x)

theorem insertByTimestamp_sorted {V : Type} (x : String × CachedValue V)
    (l : Store V)
    (hl : l.Sorted (fun a b => a.2.timestamp ≤ b.2.timestamp)) :
    (insertByTimestamp x l).Sorted
      (fun a b => a.2.timestamp ≤ b.2.timestamp) := by
  induction l with
  | nil => simp [insertByTimestamp, List.Sorted]
  | cons y ys ih =>
    rw [List.sorted_cons] at hl
    unfold insertByTimestamp
    by_cases hc : x.2.timestamp ≤ y.2.timestamp
    · rw [if_pos hc, List.sorted_cons]
      refine ⟨?_, ?_⟩
      · intro z hz
        rcases List.mem_cons.mp hz with rfl | hz
        · exact hc
        · exact le_trans hc (hl.1 z hz)
      · rw [List.sorted_cons]
        exact hl
    · rw [if_neg hc, List.sorted_cons]
      refine ⟨?_, ih hl.2⟩
      intro z hz
      have hz' := (insertByTimestamp_perm x ys).mem_iff.mp hz
      rcases List.mem_cons.mp hz' with rfl | hz'
      · exact le_of_not_le hc
      · exact hl.1 z hz'

theorem sortByTimestamp_sorted {V : Type} (l : Store V) :
    (sortByTimestamp l).Sorted (fun a b => a.2.timestamp ≤ b.2.timestamp) := by
  induction l with
  | nil => simp [sortByTimestamp, List.Sorted]
  | cons x xs ih => exact insertByTimestamp_sorted x _ ih

/-- Claim C4: with a configured `size` bound exceeded by the store, the
size-based candidate set is the store minus the `size` entries with the
greatest last-access timestamps: the sorted-descending list is split after
`size` entries, the kept prefix and the candidate remainder partition the
store, and every candidate's timestamp is bounded by every kept entry's. -/
theorem size_candidates_are_all_but_most_recent {V : Type}
    (cfg : CacheOptions) (s : Store V) (size : Nat)
    (hs : cfg.size = some size) (hover : size < s.length) :
    oldestValues cfg s =
      (((sortByTimestamp s).reverse).drop size).map Prod.fst ∧
    (oldestValues cfg s).length = s.length - size ∧
    ((sortByTimestamp s).reverse.take size).length = size ∧
    ((sortByTimestamp s).reverse.take size ++
      (sortByTimestamp s).reverse.drop size).Perm s ∧
    ∀ p ∈ (sortByTimestamp s).reverse.drop size,
      ∀ q ∈ (sortByTimestamp s).reverse.take size,
        p.2.timestamp ≤ q.2.timestamp := by
  have hperm : ((sortByTimestamp s).reverse).Perm s :=
    (List.reverse_perm _).trans (sortByTimestamp_perm s)
  have hlen : ((sortByTimestamp s).reverse).length = s.length :=
    hperm.length_eq
  refine ⟨by simp [oldestValues, hs], ?_, ?_, ?_, ?_⟩
  · simp [oldestValues, hs, (sortByTimestamp_perm s).length_eq]
  · simp [hlen]
    omega
  · rw [List.take_append_drop]
    exact hperm
  · have hdesc : ((sortByTimestamp s).reverse).Pairwise
        (fun a b : String × CachedValue V => b.2.timestamp ≤ a.2.timestamp) := by
      rw [List.pairwise_reverse]
      exact sortByTimestamp_sorted s
    rw [← List.take_append_drop size ((sortByTimestamp s).reverse),
      List.pairwise_append] at hdesc
    intro p hp q hq
    exact hdesc.2.2 q hq p hp

/-! ### Candidate membership lemmas -/

theorem storeLookup_mem {V : Type} (s : Store V) (x : String)
    (cv : CachedValue V) (hx : storeLookup s x = some cv) : (x, cv) ∈ s := by
  induction s with
  | nil => simp [storeLookup] at hx
  | cons p rest ih =>
    obtain ⟨k, c⟩ := p
    by_cases hk : k = x
    · subst hk
      simp [storeLookup] at hx
      simp [hx]
    · simp [storeLookup, hk] at hx
      exact List.mem_cons_of_mem _ (ih hx)

theorem nodupKeys_eq_of_mem {V : Type} (s : Store V) (x : String)
    (a b : CachedValue V) (hnod : (s.map Prod.fst).Nodup)
    (ha : (x, a) ∈ s) (hb : (x, b) ∈ s) : a = b := by
  induction s with
  | nil => simp at ha
  | cons p rest ih =>
    rw [List.map_cons, List.nodup_cons] at hnod
    rcases List.mem_cons.mp ha with rfl | ha' <;>
      rcases List.mem_cons.mp hb with hb' | hb'
    · exact ((Prod.mk.injEq _ _ _ _).mp hb').2.symm
    · exact absurd (List.mem_map_of_mem Prod.fst hb') (by simpa using hnod.1)
    · obtain rfl : p = (x, b) := hb'.symm
      exact absurd (List.mem_map_of_mem Prod.fst ha') (by simpa using hnod.1)
    · exact ih hnod.2 ha' hb'

theorem oldestValues_subset_keys {V : Type} (cfg : CacheOptions)
    (s : Store V) (y : String) (hy : y ∈ oldestValues cfg s) :
    y ∈ s.map Prod.fst := by
  unfold oldestValues at hy
  cases hcs : cfg.size with
  | none => rw [hcs] at hy; simp at hy
  | some size =>
    rw [hcs] at hy
    obtain ⟨p, hp, rfl⟩ := List.mem_map.mp hy
    have hp' : p ∈ (sortByTimestamp s).reverse := List.mem_of_mem_drop hp
    have hps : p ∈ s :=
      ((List.reverse_perm _).trans (sortByTimestamp_perm s)).mem_iff.mp hp'
    exact List.mem_map_of_mem Prod.fst hps

theorem expiredValues_subset_keys {V : Type} (cfg : CacheOptions)
    (s : Store V) (now : Int) (y : String)
    (hy : y ∈ expiredValues cfg s now) : y ∈ s.map Prod.fst := by
  unfold expiredValues at hy
  cases hcs : cfg.expiry with
  | none => rw [hcs] at hy; simp at hy
  | some e =>
    rw [hcs] at hy
    exact (List.mem_filter.mp hy).1

theorem trimCandidates_subset_keys {V : Type} (cfg : CacheOptions)
    (s : Store V) (now : Int) (y : String)
    (hy : y ∈ trimCandidates cfg s now) : y ∈ s.map Prod.fst := by
  rcases List.mem_append.mp hy with hy' | hy'
  · exact oldestValues_subset_keys cfg s y hy'
  · exact expiredValues_subset_keys cfg s now y hy'

theorem trimHandlerSync_other {V : Type} (acc : TrimPhaseA V) (c x : String)
    (hcx : c ≠ x) (hs : ∀ b, (x, b) ∉ acc.suspended) :
    storeLookup (trimHandlerSync acc c).store x = storeLookup acc.store x ∧
    (∀ b, (x, b) ∉ (trimHandlerSync acc c).suspended) := by
  unfold trimHandlerSync
  cases storeLookup acc.store c with
  | none => exact ⟨rfl, hs⟩
  | some ccv =>
    dsimp only
    by_cases hlc : ccv.locked > 0
    · rw [if_pos hlc]
      exact ⟨rfl, hs⟩
    · rw [if_neg hlc]
      cases ccv.destroy with
      | none =>
        exact ⟨storeLookup_delete_ne acc.store x c fun hh => hcx hh.symm, hs⟩
      | some b =>
        refine ⟨rfl, ?_⟩
        intro b' hb'
        rcases List.mem_append.mp hb' with hmem | hmem
        · exact hs b' hmem
        · have heq : (x, b') = (c, b) := List.mem_singleton.mp hmem
          exact hcx (congrArg Prod.fst heq).symm

theorem foldA_not_mem {V : Type} (l : List String) (acc : TrimPhaseA V)
    (x : String) (hnl : x ∉ l) (hs : ∀ b, (x, b) ∉ acc.suspended) :
    storeLookup (l.foldl trimHandlerSync acc).store x =
      storeLookup acc.store x ∧
    ∀ b, (x, b) ∉ (l.foldl trimHandlerSync acc).suspended := by
  induction l generalizing acc with
  | nil => exact ⟨rfl, hs⟩
  | cons c rest ih =>
    have hcx : c ≠ x := fun hh => hnl (hh ▸ List.mem_cons_self c rest)
    obtain ⟨h1, h2⟩ := trimHandlerSync_other acc c x hcx hs
    obtain ⟨h3, h4⟩ :=
      ih (trimHandlerSync acc c) (fun hh => hnl (List.mem_cons_of_mem _ hh)) h2
    exact ⟨h3.trans h1, h4⟩

/-- A hash that is not an eviction candidate is untouched by the pass. -/
theorem trim_lookup_not_candidate {V : Type} (cfg : CacheOptions)
    (s : Store V) (now : Int) (x : String)
    (hx : x ∉ trimCandidates cfg s now) :
    storeLookup (trim cfg s now).store x = storeLookup s x := by
  unfold trim
  obtain ⟨h1, h2⟩ := foldA_not_mem (trimCandidates cfg s now) ⟨s, [], [], false⟩
    x hx (by simp)
  rw [foldB_lookup_ne _ _ x h2]
  exact h1

theorem trimHandlerSync_invocations {V : Type} (acc : TrimPhaseA V)
    (c : String) :
    (trimHandlerSync acc c).invocations = acc.invocations ∨
    (trimHandlerSync acc c).invocations = acc.invocations ++ [c] := by
  unfold trimHandlerSync
  cases storeLookup acc.store c with
  | none => exact Or.inl rfl
  | some ccv =>
    dsimp only
    by_cases hlc : ccv.locked > 0
    · rw [if_pos hlc]; exact Or.inl rfl
    · rw [if_neg hlc]
      cases ccv.destroy with
      | none => exact Or.inl rfl
      | some b => exact Or.inr rfl

theorem foldA_invocations_mem {V : Type} (l : List String)
    (acc : TrimPhaseA V) (y : String)
    (hy : y ∈ (l.foldl trimHandlerSync acc).invocations) :
    y ∈ acc.invocations ∨ y ∈ l := by
  induction l generalizing acc with
  | nil => exact Or.inl hy
  | cons c rest ih =>
    rcases ih (trimHandlerSync acc c) hy with hmem | hmem
    · rcases trimHandlerSync_invocations acc c with he | he
      · exact Or.inl (he ▸ hmem)
      · rw [he] at hmem
        rcases List.mem_append.mp hmem with hmem' | hmem'
        · exact Or.inl hmem'
        · exact Or.inr (List.mem_singleton.mp hmem' ▸ List.mem_cons_self c rest)
    · exact Or.inr (List.mem_cons_of_mem c hmem)

/-- A destroy callback is only ever invoked on an eviction candidate. -/
theorem trim_invocations_mem {V : Type} (cfg : CacheOptions) (s : Store V)
    (now : Int) (y : String) (hy : y ∈ (trim cfg s now).invocations) :
    y ∈ trimCandidates cfg s now := by
  unfold trim at hy
  rcases foldA_invocations_mem (trimCandidates cfg s now) ⟨s, [], [], false⟩ y
      hy with hmem | hmem
  · simp at hmem
  · exact hmem

theorem storeSet_keys_of_lookup {V : Type} (s : Store V) (h : String)
    (cv old : CachedValue V) (hm : storeLookup s h = some old) :
    (storeSet s h cv).map Prod.fst = s.map Prod.fst := by
  induction s with
  | nil => simp [storeLookup] at hm
  | cons p rest ih =>
    obtain ⟨k, c⟩ := p
    by_cases hk : k = h
    · subst hk
      simp [storeSet]
    · simp only [storeLookup, hk, if_false] at hm
      simp [storeSet, hk, ih hm]

theorem mem_storeSet_ne {V : Type} (s : Store V) (h : String)
    (cv : CachedValue V) (p : String × CachedValue V) (hp : p ∈ storeSet s h cv)
    (hne : p.1 ≠ h) : p ∈ s := by
  induction s with
  | nil =>
    simp [storeSet] at hp
    exact absurd (congrArg Prod.fst hp) hne
  | cons q rest ih =>
    obtain ⟨k, c⟩ := q
    by_cases hk : k = h
    · subst hk
      simp only [storeSet, if_pos rfl] at hp
      rcases List.mem_cons.mp hp with rfl | hp'
      · exact absurd rfl hne
      · exact List.mem_cons_of_mem _ hp'
    · simp only [storeSet, hk, if_false] at hp
      rcases List.mem_cons.mp hp with rfl | hp'
      · exact List.mem_cons_self _ _
      · exact List.mem_cons_of_mem _ (ih hp')

/-- A just-published entry (insertion and access timestamps equal to the
trim's `now`, strictly newer than every other entry) is never an eviction
candidate of the trim pass it triggers. -/
theorem fresh_entry_not_candidate {V : Type} (cfg : CacheOptions)
    (s : Store V) (h : String) (cv : CachedValue V) (now : Int)
    (hv : validOptions cfg = true) (hnod : (s.map Prod.fst).Nodup)
    (hlook : storeLookup s h = some cv)
    (hins : cv.insertionTimestamp = now) (hts : cv.timestamp = now)
    (hothers : ∀ p ∈ s, p.1 ≠ h → p.2.timestamp < now) :
    h ∉ trimCandidates cfg s now := by
  intro hmem
  rcases List.mem_append.mp hmem with hy | hy
  · unfold oldestValues at hy
    cases hcs : cfg.size with
    | none => rw [hcs] at hy; simp at hy
    | some size =>
      rw [hcs] at hy
      have hsz : 0 < size := by
        simp [validOptions, hcs] at hv
        exact hv.1
      obtain ⟨p, hp, hpfst⟩ := List.mem_map.mp hy
      have hperm : ((sortByTimestamp s).reverse).Perm s :=
        (List.reverse_perm _).trans (sortByTimestamp_perm s)
      have hps : p ∈ s := hperm.mem_iff.mp (List.mem_of_mem_drop hp)
      have hpcv : p = (h, cv) := by
        obtain ⟨p1, p2⟩ := p
        simp only at hpfst
        subst hpfst
        have := nodupKeys_eq_of_mem s p1 p2 cv hnod hps
          (storeLookup_mem s p1 cv hlook)
        rw [this]
      rw [hpcv] at hp
      have hkeysnodup : (((sortByTimestamp s).reverse).map Prod.fst).Nodup :=
        (hperm.map Prod.fst).nodup_iff.mpr hnod
      have hdesc : ((sortByTimestamp s).reverse).Pairwise
          (fun a b : String × CachedValue V =>
            b.2.timestamp ≤ a.2.timestamp) := by
        rw [List.pairwise_reverse]
        exact sortByTimestamp_sorted s
      have hdlen : 0 < (((sortByTimestamp s).reverse).drop size).length :=
        List.length_pos.mpr (List.ne_nil_of_mem hp)
      rw [List.length_drop] at hdlen
      have htake_len : (((sortByTimestamp s).reverse).take size).length =
          size := by
        rw [List.length_take]
        omega
      have htake_ne : ((sortByTimestamp s).reverse).take size ≠ [] := by
        intro hnil
        rw [hnil] at htake_len
        simp at htake_len
        omega
      obtain ⟨q, hq⟩ := List.exists_mem_of_ne_nil _ htake_ne
      have hq_desc : q ∈ (sortByTimestamp s).reverse :=
        (List.take_sublist size _).mem hq
      have hqs : q ∈ s := hperm.mem_iff.mp hq_desc
      have hsplit : ((sortByTimestamp s).reverse).take size ++
          ((sortByTimestamp s).reverse).drop size =
          (sortByTimestamp s).reverse := List.take_append_drop _ _
      have hcross := (List.pairwise_append.mp (hsplit ▸ hdesc)).2.2
      have hq_ge : now ≤ q.2.timestamp := by
        have := hcross q hq (h, cv) hp
        simpa [hts] using this
      by_cases hqh : q.1 = h
      · obtain ⟨q1, q2⟩ := q
        simp only at hqh
        subst hqh
        have hq2 : q2 = cv := nodupKeys_eq_of_mem s q1 q2 cv hnod hqs
          (storeLookup_mem s q1 cv hlook)
        subst hq2
        have hmapsplit : (((sortByTimestamp s).reverse).map Prod.fst) =
            (((sortByTimestamp s).reverse).take size).map Prod.fst ++
            (((sortByTimestamp s).reverse).drop size).map Prod.fst := by
          rw [← List.map_append, hsplit]
        rw [hmapsplit, List.nodup_append] at hkeysnodup
        exact hkeysnodup.2.2 (List.mem_map_of_mem Prod.fst hq)
          (List.mem_map_of_mem Prod.fst hp)
      · exact absurd hq_ge (not_le.mpr (hothers q hqs hqh))
  · unfold expiredValues at hy
    cases hce : cfg.expiry with
    | none => rw [hce] at hy; simp at hy
    | some e =>
      rw [hce] at hy
      have hexp := (List.mem_filter.mp hy).2
      have he_pos : 0 < e := by
        simp [validOptions, hce] at hv
        exact hv.2
      simp only [isExpired, hce, hlook] at hexp
      rw [if_pos (show e ≠ 0 by omega)] at hexp
      rw [hins] at hexp
      have hlt : now + e < now := of_decide_eq_true hexp
      omega

theorem addToStore_factoryCalls {K V : Type} (cfg : CacheOptions)
    (create : K → Option (V × Option Bool)) (s : Store V) (h : String)
    (key : K) (now : Int) :
    (addToStore cfg create s h key now).factoryCalls = 1 := by
  unfold addToStore
  cases create key with
  | none => rfl
  | some vd =>
    obtain ⟨v, d⟩ := vd
    dsimp only
    split <;> rfl

theorem addToStore_eq {K V : Type} (cfg : CacheOptions)
    (create : K → Option (V × Option Bool)) (s : Store V) (h : String)
    (key : K) (now : Int) (v : V) (d : Option Bool)
    (hc : create key = some (v, d)) :
    (addToStore cfg create s h key now).store =
      (shrinkCache false cfg (storeSet s h ⟨v, now, now, 0, d⟩) now).store ∧
    (addToStore cfg create s h key now).invocations =
      (shrinkCache false cfg (storeSet s h ⟨v, now, now, 0, d⟩) now).invocations := by
  unfold addToStore
  rw [hc]
  dsimp only
  split <;> exact ⟨rfl, rfl⟩

theorem shrinkCache_not_candidate {V : Type} (cfg : CacheOptions)
    (s : Store V) (now : Int) (x : String)
    (hx : x ∉ trimCandidates cfg s now) :
    storeLookup (shrinkCache false cfg s now).store x = storeLookup s x ∧
    x ∉ (shrinkCache false cfg s now).invocations := by
  unfold shrinkCache
  rw [if_neg (by simp)]
  split
  · exact ⟨trim_lookup_not_candidate cfg s now x hx,
      fun hmem => hx (trim_invocations_mem cfg s now x hmem)⟩
  · exact ⟨rfl, by simp⟩

/-- Claim C2 (amended): an entry with a positive lock count is never
removed from the store and never has its destroy callback invoked by a trim
pass, nor by `shrinkCache` (the entry point of both the post-creation trim
and the scheduled cleanup).  The amendment excludes the get path: a `get`
finding an *expired* entry replaces the slot regardless of the lock count
(see the counterexample). -/
theorem locked_entry_survives_maintenance {V : Type} (cfg : CacheOptions)
    (lock : Bool) (s : Store V) (now : Int) (x : String) (cv : CachedValue V)
    (hm : storeLookup s x = some cv) (hl : 0 < cv.locked) :
    storeLookup (trim cfg s now).store x = some cv ∧
    x ∉ (trim cfg s now).invocations ∧
    storeLookup (shrinkCache lock cfg s now).store x = some cv ∧
    x ∉ (shrinkCache lock cfg s now).invocations := by
  obtain ⟨h1, h2⟩ := trim_preserves_locked cfg s now x cv hm hl
  obtain ⟨h3, h4⟩ := shrinkCache_preserves_locked lock cfg s now x cv hm hl
  exact ⟨h1, h2, h3, h4⟩

theorem locked_entry_survives_maintenance_witness :
    storeLookup [("a", (⟨1, 0, 0, 2, none⟩ : CachedValue Nat)),
        ("b", ⟨2, 10, 10, 0, none⟩)] "a" = some ⟨1, 0, 0, 2, none⟩ ∧
    0 < (⟨1, 0, 0, 2, (none : Option Bool)⟩ : CachedValue Nat).locked ∧
    (storeLookup (trim ⟨some 1, some 5⟩
        [("a", ⟨1, 0, 0, 2, none⟩), ("b", ⟨2, 10, 10, 0, none⟩)] 20).store "a" =
        some ⟨1, 0, 0, 2, none⟩ ∧
      "a" ∉ (trim ⟨some 1, some 5⟩
        [("a", ⟨1, 0, 0, 2, none⟩), ("b", ⟨2, 10, 10, 0, none⟩)] 20).invocations ∧
      storeLookup (shrinkCache false ⟨some 1, some 5⟩
        [("a", ⟨1, 0, 0, 2, none⟩), ("b", ⟨2, 10, 10, 0, none⟩)] 20).store "a" =
        some ⟨1, 0, 0, 2, none⟩ ∧
      "a" ∉ (shrinkCache false ⟨some 1, some 5⟩
        [("a", ⟨1, 0, 0, 2, none⟩), ("b", ⟨2, 10, 10, 0, none⟩)] 20).invocations) :=
  ⟨by decide, by decide,
    locked_entry_survives_maintenance ⟨some 1, some 5⟩ false
      [("a", ⟨1, 0, 0, 2, none⟩), ("b", ⟨2, 10, 10, 0, none⟩)] 20 "a"
      ⟨1, 0, 0, 2, none⟩ (by decide) (by decide)⟩

/-- Claim C2 counterexample: with `expiry = 5`, a `get` at clock value 10
on the hash of an entry inserted at 0 with `lockCount = 3` replaces the
slot with the freshly created entry — the locked entry is removed from the
store by a get variant, falsifying "no operation of the engine removes that
entry". -/
theorem locked_entry_replaced_by_get :
    (getOrInsertCachedValue ⟨none, some 5⟩ (fun _ => some (2, none))
      (id : String → String) [("x", ⟨1, 0, 0, 3, none⟩)] "x" 10).store =
      [("x", ⟨2, 10, 10, 0, none⟩)] ∧
    storeLookup (getOrInsertCachedValue ⟨none, some 5⟩ (fun _ => some (2, none))
        (id : String → String) [("x", ⟨1, 0, 0, 3, none⟩)] "x" 10).store "x" ≠
      some ⟨1, 0, 0, 3, none⟩ :=
  ⟨by decide, by decide⟩

/-- Claim C3 (amended): with `expiry = D > 0` and an entry whose insertion
timestamp is `T`, a get at clock value strictly greater than `T + D`
re-invokes the factory, while a get at any clock value ≤ `T + D` (including
the boundary `T + D` itself) performs no factory call and returns the
cached entry with only its access timestamp refreshed.  The source's
`isExpired` uses a strict `<`, so the boundary instant is *not* expired. -/
theorem expiry_refresh_strict_boundary {K V : Type} (cfg : CacheOptions)
    (create : K → Option (V × Option Bool)) (hasher : K → String)
    (s : Store V) (key : K) (now D : Int) (cv : CachedValue V)
    (hD : cfg.expiry = some D) (hD0 : 0 < D)
    (hm : storeLookup s (hasher key) = some cv) :
    (cv.insertionTimestamp + D < now →
      (getOrInsertCachedValue cfg create hasher s key now).factoryCalls = 1) ∧
    (now ≤ cv.insertionTimestamp + D →
      (getOrInsertCachedValue cfg create hasher s key now).factoryCalls = 0 ∧
      (getOrInsertCachedValue cfg create hasher s key now).result =
        some { cv with timestamp := now }) := by
  have hmemb : storeMem s (hasher key) = true := by simp [storeMem, hm]
  constructor
  · intro hlt
    have hexp : isExpired cfg s (hasher key) now = true := by
      simp only [isExpired, hD, hm]
      rw [if_pos (show D ≠ 0 by omega)]
      exact decide_eq_true hlt
    simp only [getOrInsertCachedValue, hexp, Bool.or_true, if_true]
    exact addToStore_factoryCalls cfg create s (hasher key) key now
  · intro hle
    have hexp : isExpired cfg s (hasher key) now = false := by
      simp only [isExpired, hD, hm]
      rw [if_pos (show D ≠ 0 by omega)]
      exact decide_eq_false (by omega)
    simp [getOrInsertCachedValue, hexp, hmemb, hm]

theorem expiry_refresh_strict_boundary_witness :
    (⟨none, some 5⟩ : CacheOptions).expiry = some 5 ∧ (0 : Int) < 5 ∧
    storeLookup [("x", (⟨1, 0, 0, 0, none⟩ : CachedValue Nat))] "x" =
      some ⟨1, 0, 0, 0, none⟩ ∧
    (((⟨1, 0, 0, 0, (none : Option Bool)⟩ :
        CachedValue Nat).insertionTimestamp + 5 < 6 →
      (getOrInsertCachedValue ⟨none, some 5⟩ (fun _ => some (9, none))
        (id : String → String) [("x", ⟨1, 0, 0, 0, none⟩)] "x"
        6).factoryCalls = 1) ∧
    (6 ≤ (⟨1, 0, 0, 0, (none : Option Bool)⟩ :
        CachedValue Nat).insertionTimestamp + 5 →
      (getOrInsertCachedValue ⟨none, some 5⟩ (fun _ => some (9, none))
        (id : String → String) [("x", ⟨1, 0, 0, 0, none⟩)] "x"
        6).factoryCalls = 0 ∧
      (getOrInsertCachedValue ⟨none, some 5⟩ (fun _ => some (9, none))
        (id : String → String) [("x", ⟨1, 0, 0, 0, none⟩)] "x" 6).result =
        some ⟨1, 0, 6, 0, none⟩)) :=
  ⟨rfl, by decide, by decide,
    expiry_refresh_strict_boundary ⟨none, some 5⟩ (fun _ => some (9, none))
      (id : String → String) [("x", ⟨1, 0, 0, 0, none⟩)] "x" 6 5
      ⟨1, 0, 0, 0, none⟩ rfl (by decide) (by decide)⟩

/-- Claim C3 counterexample: with `expiry = 5` and an entry inserted at
`T = 0`, a get at clock value exactly `T + D = 5` does not re-invoke the
factory (the claim requires a refresh at every time ≥ T + D); the cached
value is returned with its access timestamp refreshed. -/
theorem expiry_boundary_not_refreshed :
    (getOrInsertCachedValue ⟨none, some 5⟩ (fun _ => some (9, none))
      (id : String → String) [("x", ⟨1, 0, 0, 0, none⟩)] "x"
      5).factoryCalls = 0 ∧
    (getOrInsertCachedValue ⟨none, some 5⟩ (fun _ => some (9, none))
      (id : String → String) [("x", ⟨1, 0, 0, 0, none⟩)] "x" 5).result =
      some ⟨1, 0, 5, 0, none⟩ :=
  ⟨by decide, by decide⟩

/-- Claim C6 (code bug): with `size = 1` and `expiry = 5`, after `get("b")`
at clock 10 publishes `b`, hash `a` (inserted at 0) is both a size-based
and an expiry-based candidate, so the candidate list is `["a", "a"]`.  The
first handler deletes `a` synchronously (no destroy callback); the
duplicate handler's read of `store["a"].locked` — outside its try/catch —
then throws, the pass rejects, and the rejection propagates through
`shrinkCache` and `addToStore` to the `get("b")` caller, whose call
rejects even though the factory succeeded and the value was published. -/
theorem trim_error_surfaces_to_caller :
    trimCandidates (V := Nat) ⟨some 1, some 5⟩
      [("a", ⟨1, 0, 0, 0, none⟩), ("b", ⟨2, 10, 10, 0, none⟩)] 10 =
      ["a", "a"] ∧
    (trim (V := Nat) ⟨some 1, some 5⟩
      [("a", ⟨1, 0, 0, 0, none⟩), ("b", ⟨2, 10, 10, 0, none⟩)] 10).errored =
      true ∧
    (getOrInsertCachedValue ⟨some 1, some 5⟩ (fun _ => some (2, none))
      (id : String → String) [("a", ⟨1, 0, 0, 0, none⟩)] "b" 10).result =
      none ∧
    storeLookup (getOrInsertCachedValue ⟨some 1, some 5⟩
        (fun _ => some (2, none)) (id : String → String)
        [("a", ⟨1, 0, 0, 0, none⟩)] "b" 10).store "b" =
      some ⟨2, 10, 10, 0, none⟩ :=
  ⟨by decide, by decide, by decide, by decide⟩

/-- Claim C1 counterexample: one logically-concurrent `get("b")` call
(M = 1, trivially issued before any completes) on a store with no entry for
its hash.  The factory succeeds and is invoked exactly once, but the call
rejects — the trim pass triggered by the publication threw — so it is not
the case that all M calls resolve to the published value. -/
theorem concurrent_get_call_rejects :
    storeMem [("a", (⟨1, 0, 0, 0, none⟩ : CachedValue Nat))] "b" = false ∧
    (getOrInsertCachedValue ⟨some 1, some 5⟩ (fun _ => some (2, none))
      (id : String → String) [("a", ⟨1, 0, 0, 0, none⟩)] "b"
      10).factoryCalls = 1 ∧
    (getOrInsertCachedValue ⟨some 1, some 5⟩ (fun _ => some (2, none))
      (id : String → String) [("a", ⟨1, 0, 0, 0, none⟩)] "b" 10).result =
      none :=
  ⟨by decide, by decide, by decide⟩

/-- Claim C10: a get that finds an expired entry (with no creation in
flight) re-invokes the factory and publishes the new entry over the old
store slot; the replaced entry's destroy callback is never invoked on this
path, and the replacement happens whatever the old entry's lock count (the
lock count of `old` is universally quantified). -/
theorem expired_entry_replaced_without_destroy {K V : Type}
    (cfg : CacheOptions) (create : K → Option (V × Option Bool))
    (hasher : K → String) (s : Store V) (key : K) (now : Int)
    (old : CachedValue V) (v : V) (d : Option Bool)
    (hv : validOptions cfg = true) (hnod : (s.map Prod.fst).Nodup)
    (hm : storeLookup s (hasher key) = some old)
    (hexp : isExpired cfg s (hasher key) now = true)
    (hts : ∀ p ∈ s, p.2.timestamp < now)
    (hc : create key = some (v, d)) :
    (getOrInsertCachedValue cfg create hasher s key now).factoryCalls = 1 ∧
    storeLookup (getOrInsertCachedValue cfg create hasher s key now).store
      (hasher key) = some ⟨v, now, now, 0, d⟩ ∧
    hasher key ∉
      (getOrInsertCachedValue cfg create hasher s key now).invocations := by
  have hget : getOrInsertCachedValue cfg create hasher s key now =
      addToStore cfg create s (hasher key) key now := by
    simp only [getOrInsertCachedValue, hexp, Bool.or_true, if_true]
  rw [hget]
  obtain ⟨hst, hinv⟩ := addToStore_eq cfg create s (hasher key) key now v d hc
  have hnod1 : ((storeSet s (hasher key)
      ⟨v, now, now, 0, d⟩).map Prod.fst).Nodup := by
    rw [storeSet_keys_of_lookup s (hasher key) _ old hm]
    exact hnod
  have hlook1 : storeLookup (storeSet s (hasher key) ⟨v, now, now, 0, d⟩)
      (hasher key) = some ⟨v, now, now, 0, d⟩ :=
    storeLookup_set_self s (hasher key) _
  have hothers1 : ∀ p ∈ storeSet s (hasher key) ⟨v, now, now, 0, d⟩,
      p.1 ≠ hasher key → p.2.timestamp < now := fun p hp hne =>
    hts p (mem_storeSet_ne s (hasher key) _ p hp hne)
  have hfresh : hasher key ∉ trimCandidates cfg
      (storeSet s (hasher key) ⟨v, now, now, 0, d⟩) now :=
    fresh_entry_not_candidate cfg _ (hasher key) ⟨v, now, now, 0, d⟩ now hv
      hnod1 hlook1 rfl rfl hothers1
  obtain ⟨hsl, hsi⟩ := shrinkCache_not_candidate cfg
    (storeSet s (hasher key) ⟨v, now, now, 0, d⟩) now (hasher key) hfresh
  refine ⟨addToStore_factoryCalls cfg create s (hasher key) key now, ?_, ?_⟩
  · rw [hst, hsl]
    exact hlook1
  · rw [hinv]
    exact hsi

theorem expired_entry_replaced_without_destroy_witness :
    validOptions ⟨none, some 5⟩ = true ∧
    ((["x"] : List String).Nodup) ∧
    storeLookup [("x", (⟨1, 0, 0, 7, some true⟩ : CachedValue Nat))] "x" =
      some ⟨1, 0, 0, 7, some true⟩ ∧
    isExpired ⟨none, some 5⟩
      [("x", (⟨1, 0, 0, 7, some true⟩ : CachedValue Nat))] "x" 10 = true ∧
    ((getOrInsertCachedValue ⟨none, some 5⟩ (fun _ => some (2, none))
      (id : String → String) [("x", ⟨1, 0, 0, 7, some true⟩)] "x"
      10).factoryCalls = 1 ∧
    storeLookup (getOrInsertCachedValue ⟨none, some 5⟩
        (fun _ => some (2, none)) (id : String → String)
        [("x", ⟨1, 0, 0, 7, some true⟩)] "x" 10).store "x" =
      some ⟨2, 10, 10, 0, none⟩ ∧
    "x" ∉ (getOrInsertCachedValue ⟨none, some 5⟩ (fun _ => some (2, none))
      (id : String → String) [("x", ⟨1, 0, 0, 7, some true⟩)] "x"
      10).invocations) :=
  ⟨by decide, by decide, by decide, by decide,
    expired_entry_replaced_without_destroy ⟨none, some 5⟩
      (fun _ => some (2, none)) (id : String → String)
      [("x", ⟨1, 0, 0, 7, some true⟩)] "x" 10 ⟨1, 0, 0, 7, some true⟩ 2 none
      (by decide) (by decide) (by decide) (by decide) (by decide) rfl⟩

theorem size_candidates_are_all_but_most_recent_witness :
    (⟨some 1, none⟩ : CacheOptions).size = some 1 ∧
    1 < ([("a", (⟨1, 0, 0, 0, none⟩ : CachedValue Nat)),
      ("b", ⟨2, 5, 5, 0, none⟩)] : Store Nat).length ∧
    (oldestValues ⟨some 1, none⟩
        [("a", (⟨1, 0, 0, 0, none⟩ : CachedValue Nat)), ("b", ⟨2, 5, 5, 0, none⟩)] =
      (((sortByTimestamp [("a", (⟨1, 0, 0, 0, none⟩ : CachedValue Nat)),
        ("b", ⟨2, 5, 5, 0, none⟩)]).reverse).drop 1).map Prod.fst ∧
    (oldestValues ⟨some 1, none⟩
        [("a", (⟨1, 0, 0, 0, none⟩ : CachedValue Nat)),
          ("b", ⟨2, 5, 5, 0, none⟩)]).length =
      ([("a", (⟨1, 0, 0, 0, none⟩ : CachedValue Nat)),
        ("b", ⟨2, 5, 5, 0, none⟩)] : Store Nat).length - 1 ∧
    ((sortByTimestamp [("a", (⟨1, 0, 0, 0, none⟩ : CachedValue Nat)),
        ("b", ⟨2, 5, 5, 0, none⟩)]).reverse.take 1).length = 1 ∧
    ((sortByTimestamp [("a", (⟨1, 0, 0, 0, none⟩ : CachedValue Nat)),
        ("b", ⟨2, 5, 5, 0, none⟩)]).reverse.take 1 ++
      (sortByTimestamp [("a", (⟨1, 0, 0, 0, none⟩ : CachedValue Nat)),
        ("b", ⟨2, 5, 5, 0, none⟩)]).reverse.drop 1).Perm
      [("a", (⟨1, 0, 0, 0, none⟩ : CachedValue Nat)), ("b", ⟨2, 5, 5, 0, none⟩)] ∧
    ∀ p ∈ (sortByTimestamp [("a", (⟨1, 0, 0, 0, none⟩ : CachedValue Nat)),
        ("b", ⟨2, 5, 5, 0, none⟩)]).reverse.drop 1,
      ∀ q ∈ (sortByTimestamp [("a", (⟨1, 0, 0, 0, none⟩ : CachedValue Nat)),
        ("b", ⟨2, 5, 5, 0, none⟩)]).reverse.take 1,
        p.2.timestamp ≤ q.2.timestamp) :=
  ⟨rfl, by decide,
    size_candidates_are_all_but_most_recent ⟨some 1, none⟩
      [("a", ⟨1, 0, 0, 0, none⟩), ("b", ⟨2, 5, 5, 0, none⟩)] 1 rfl (by decide)⟩

/-! ### Destroy-failure lemmas (claim C7) -/

theorem storeLookup_isSome_of_mem_keys {V : Type} (s : Store V) (y : String)
    (hy : y ∈ s.map Prod.fst) : ∃ cv, storeLookup s y = some cv := by
  induction s with
  | nil => simp at hy
  | cons p rest ih =>
    obtain ⟨k, c⟩ := p
    by_cases hk : k = y
    · subst hk
      exact ⟨c, by simp [storeLookup]⟩
    · rw [List.map_cons, List.mem_cons] at hy
      rcases hy with rfl | hy'
      · exact absurd rfl hk
      · obtain ⟨cv, hcv⟩ := ih hy'
        exact ⟨cv, by simp [storeLookup, hk, hcv]⟩

theorem foldA_all_destroy {V : Type} (l : List String) (acc : TrimPhaseA V)
    (s : Store V) (hacc : acc.store = s) (herr : acc.errored = false)
    (hl_keys : ∀ c ∈ l, c ∈ s.map Prod.fst)
    (hall : ∀ p ∈ s, p.2.destroy.isSome = true)
    (hsusp : ∀ yb ∈ acc.suspended, ∀ cv : CachedValue V,
      storeLookup s yb.1 = some cv → cv.destroy = some yb.2) :
    (l.foldl trimHandlerSync acc).store = s ∧
    (l.foldl trimHandlerSync acc).errored = false ∧
    ∀ yb ∈ (l.foldl trimHandlerSync acc).suspended, ∀ cv : CachedValue V,
      storeLookup s yb.1 = some cv → cv.destroy = some yb.2 := by
  induction l generalizing acc with
  | nil => exact ⟨hacc, herr, hsusp⟩
  | cons c rest ih =>
    obtain ⟨ccv, hccv⟩ := storeLookup_isSome_of_mem_keys s c
      (hl_keys c (List.mem_cons_self c rest))
    have hccv' : storeLookup acc.store c = some ccv := by rw [hacc]; exact hccv
    have hcmem : (c, ccv) ∈ s := storeLookup_mem s c ccv hccv
    have hcd : ccv.destroy.isSome = true := hall (c, ccv) hcmem
    have hstep : (trimHandlerSync acc c).store = s ∧
        (trimHandlerSync acc c).errored = false ∧
        ∀ yb ∈ (trimHandlerSync acc c).suspended, ∀ cv : CachedValue V,
          storeLookup s yb.1 = some cv → cv.destroy = some yb.2 := by
      unfold trimHandlerSync
      rw [hccv']
      dsimp only
      by_cases hlc : ccv.locked > 0
      · rw [if_pos hlc]
        exact ⟨hacc, herr, hsusp⟩
      · rw [if_neg hlc]
        cases hdst : ccv.destroy with
        | none => rw [hdst] at hcd; simp at hcd
        | some b =>
          refine ⟨hacc, herr, ?_⟩
          intro yb hyb cv hcv
          rcases List.mem_append.mp hyb with hmem | hmem
          · exact hsusp yb hmem cv hcv
          · obtain rfl : yb = (c, b) := List.mem_singleton.mp hmem
            rw [hccv] at hcv
            obtain rfl : ccv = cv := by injection hcv
            exact hdst
    exact ih (trimHandlerSync acc c) hstep.1 hstep.2.1
      (fun c' hc' => hl_keys c' (List.mem_cons_of_mem c hc')) hstep.2.2

theorem foldB_preserves_nonTrue {V : Type} (l : List (String × Bool))
    (s : Store V) (x : String) (hnd : (x, true) ∉ l) :
    storeLookup (l.foldl trimHandlerResume s) x = storeLookup s x := by
  induction l generalizing s with
  | nil => rfl
  | cons hb rest ih =>
    have hstep : storeLookup (trimHandlerResume s hb) x = storeLookup s x := by
      unfold trimHandlerResume
      by_cases hb2 : hb.2
      · have hne : hb.1 ≠ x := by
          intro hh
          apply hnd
          have : hb = (x, true) := by
            obtain ⟨h1, h2⟩ := hb
            simp only at hb2 hh
            rw [hh, hb2]
          exact this ▸ List.mem_cons_self _ _
        simp [hb2, storeLookup_delete_ne s x hb.1 fun hh => hne hh.symm]
      · simp [hb2]
    rw [List.foldl_cons,
      ih _ fun hmem => hnd (List.mem_cons_of_mem _ hmem), hstep]

/-- Claim C7: when an eviction candidate's destroy callback rejects, the
entry is left in the store unchanged and the error is swallowed inside the
handler's catch — the trim pass resolves (no error escapes to any caller).
The hypothesis that every entry carries a destroy callback matches the
claim's scenario and rules out the unrelated duplicate-candidate crash of
C6 (destroy-carrying entries are never deleted synchronously). -/
theorem failing_destroy_leaves_entry_and_swallows {V : Type}
    (cfg : CacheOptions) (s : Store V) (now : Int) (x : String)
    (cv : CachedValue V) (hall : ∀ p ∈ s, p.2.destroy.isSome = true)
    (hm : storeLookup s x = some cv) (hd : cv.destroy = some false) :
    storeLookup (trim cfg s now).store x = some cv ∧
    (trim cfg s now).errored = false := by
  unfold trim
  obtain ⟨hstore, herr, hsusp⟩ := foldA_all_destroy (trimCandidates cfg s now)
    ⟨s, [], [], false⟩ s rfl rfl
    (fun c hc => trimCandidates_subset_keys cfg s now c hc) hall (by simp)
  refine ⟨?_, herr⟩
  have hnottrue : (x, true) ∉
      ((trimCandidates cfg s now).foldl trimHandlerSync
        ⟨s, [], [], false⟩).suspended := by
    intro hmem
    have := hsusp (x, true) hmem cv hm
    rw [hd] at this
    exact Bool.false_ne_true (by injection this)
  rw [foldB_preserves_nonTrue _ _ x hnottrue, hstore]
  exact hm

theorem failing_destroy_leaves_entry_and_swallows_witness :
    (∀ p ∈ ([("a", (⟨1, 0, 0, 0, some false⟩ : CachedValue Nat)),
      ("b", ⟨2, 5, 5, 0, some true⟩)] : Store Nat), p.2.destroy.isSome = true) ∧
    storeLookup [("a", (⟨1, 0, 0, 0, some false⟩ : CachedValue Nat)),
      ("b", ⟨2, 5, 5, 0, some true⟩)] "a" = some ⟨1, 0, 0, 0, some false⟩ ∧
    (⟨1, 0, 0, 0, (some false : Option Bool)⟩ : CachedValue Nat).destroy =
      some false ∧
    (storeLookup (trim ⟨some 1, some 2⟩
        [("a", (⟨1, 0, 0, 0, some false⟩ : CachedValue Nat)),
          ("b", ⟨2, 5, 5, 0, some true⟩)] 9).store "a" =
        some ⟨1, 0, 0, 0, some false⟩ ∧
      (trim ⟨some 1, some 2⟩
        [("a", (⟨1, 0, 0, 0, some false⟩ : CachedValue Nat)),
          ("b", ⟨2, 5, 5, 0, some true⟩)] 9).errored = false) :=
  ⟨by decide, by decide, rfl,
    failing_destroy_leaves_entry_and_swallows ⟨some 1, some 2⟩
      [("a", ⟨1, 0, 0, 0, some false⟩), ("b", ⟨2, 5, 5, 0, some true⟩)] 9 "a"
      ⟨1, 0, 0, 0, some false⟩ (by decide) (by decide) rfl⟩

/-! ### Batch ordering (claim C8) -/

theorem assemble_map_fst {K V : Type} (ks : List K) (ss : List (SlotState V))
    (l : List (K × V)) (h : assemble ks ss = some l) :
    l.map Prod.fst = ks := by
  induction ks generalizing ss l with
  | nil =>
    cases ss with
    | nil =>
      simp [assemble] at h
      simp [h]
    | cons sl ss' => simp [assemble] at h
  | cons k ks ih =>
    cases ss with
    | nil => simp [assemble] at h
    | cons sl ss' =>
      cases sl with
      | val hh v =>
        simp only [assemble, Option.map_eq_some'] at h
        obtain ⟨l', hl', rfl⟩ := h
        simp [ih ss' l' hl']
      | waitFor hh nn => simp [assemble] at h
      | failedS => simp [assemble] at h

/-- Claim C8: the key/value pairs produced by `getMultiple`, and the pair
list handed to the transformer by `getMultipleWith`, are in exactly the
input key order, for every completion schedule `π` of the underlying
parallel fetches. -/
theorem batch_output_order_matches_input {K V : Type} (cfg : CacheOptions)
    (create : K → Option (V × Option Bool)) (hasher : K → String)
    (s : Store V) (keysAndNows : List (K × Int)) (π : List Nat) (tOk : Bool)
    (l l' : List (K × V))
    (h1 : (getMultiple cfg create hasher s keysAndNows π).2 = some l)
    (h2 : (getMultipleWith cfg create hasher s keysAndNows π
      tOk).transformerArg = some l') :
    l.map Prod.fst = keysAndNows.map Prod.fst ∧
    l'.map Prod.fst = keysAndNows.map Prod.fst := by
  constructor
  · exact assemble_map_fst _ _ l h1
  · have harg : (getMultipleWith cfg create hasher s keysAndNows π
        tOk).transformerArg =
        (if anyFailed (fetchMany cfg create hasher s keysAndNows π).2
         then none
         else assemble (keysAndNows.map Prod.fst)
           (fetchMany cfg create hasher s keysAndNows π).2) := by
      unfold getMultipleWith
      dsimp only
      split <;> rfl
    rw [harg] at h2
    by_cases hf : anyFailed (fetchMany cfg create hasher s keysAndNows π).2
    · rw [if_pos hf] at h2
      exact absurd h2 (by simp)
    · rw [if_neg hf] at h2
      exact assemble_map_fst _ _ l' h2

theorem batch_output_order_matches_input_witness :
    (getMultiple ⟨none, none⟩
      (fun k => some (k ++ "!", none)) (id : String → String) []
      [("x", (0 : Int)), ("y", 1), ("z", 2)] [2, 0, 1]).2 =
      some [("x", "x!"), ("y", "y!"), ("z", "z!")] ∧
    (getMultipleWith ⟨none, none⟩
      (fun k => some (k ++ "!", none)) (id : String → String) []
      [("x", (0 : Int)), ("y", 1), ("z", 2)] [2, 0, 1]
      true).transformerArg = some [("x", "x!"), ("y", "y!"), ("z", "z!")] ∧
    ([("x", "x!"), ("y", "y!"), ("z", "z!")].map Prod.fst =
      [("x", (0 : Int)), ("y", 1), ("z", 2)].map Prod.fst ∧
    [("x", "x!"), ("y", "y!"), ("z", "z!")].map Prod.fst =
      [("x", (0 : Int)), ("y", 1), ("z", 2)].map Prod.fst) :=
  ⟨by decide, by decide,
    batch_output_order_matches_input ⟨none, none⟩
      (fun k => some (k ++ "!", none)) (id : String → String) []
      [("x", (0 : Int)), ("y", 1), ("z", 2)] [2, 0, 1] true
      [("x", "x!"), ("y", "y!"), ("z", "z!")]
      [("x", "x!"), ("y", "y!"), ("z", "z!")] (by decide) (by decide)⟩

/-! ### Lock-balance lemmas (claim C5) -/

theorem lockAdjust_lookup_self {V : Type} (s : Store V) (h : String)
    (f : Nat → Nat) :
    storeLookup (lockAdjust s h f) h =
      (storeLookup s h).map (fun cv => { cv with locked := f cv.locked }) := by
  unfold lockAdjust
  cases hcv : storeLookup s h with
  | none => rw [hcv]; rfl
  | some cv => rw [storeLookup_set_self]; rfl

theorem lockAdjust_lookup_ne {V : Type} (s : Store V) (h x : String)
    (f : Nat → Nat) (hne : x ≠ h) :
    storeLookup (lockAdjust s h f) x = storeLookup s x := by
  unfold lockAdjust
  cases storeLookup s h with
  | none => rfl
  | some cv => exact storeLookup_set_ne s h x _ hne

theorem lockAdjust_isSome {V : Type} (s : Store V) (h x : String)
    (f : Nat → Nat) :
    (storeLookup (lockAdjust s h f) x).isSome = (storeLookup s x).isSome := by
  by_cases hxh : x = h
  · subst hxh
    rw [lockAdjust_lookup_self]
    cases storeLookup s x <;> rfl
  · rw [lockAdjust_lookup_ne s h x f hxh]

theorem fold_lockAdjust_isSome {V : Type} (g : Nat → Nat) (hs : List String)
    (s : Store V) (x : String) :
    (storeLookup (hs.foldl (fun st h => lockAdjust st h g) s) x).isSome =
      (storeLookup s x).isSome := by
  induction hs generalizing s with
  | nil => rfl
  | cons h0 rest ih =>
    rw [List.foldl_cons, ih (lockAdjust s h0 g), lockAdjust_isSome]

theorem fold_lockAdjust_none {V : Type} (g : Nat → Nat) (hs : List String)
    (s : Store V) (x : String) (hx : storeLookup s x = none) :
    storeLookup (hs.foldl (fun st h => lockAdjust st h g) s) x = none := by
  have h1 := fold_lockAdjust_isSome g hs s x
  rw [hx] at h1
  exact Option.not_isSome_iff_eq_none.mp (by simp [h1])

theorem lockedOrZero_lockAdjust_step {V : Type} (s : Store V) (h0 x : String)
    (g : Nat → Nat) (hx : (storeLookup s x).isSome = true) :
    lockedOrZero (lockAdjust s h0 g) x =
      if x = h0 then g (lockedOrZero s x) else lockedOrZero s x := by
  by_cases hxh : x = h0
  · subst hxh
    rw [if_pos rfl]
    unfold lockedOrZero
    rw [lockAdjust_lookup_self]
    cases hcv : storeLookup s x with
    | none => rw [hcv] at hx; simp at hx
    | some cv => rfl
  · rw [if_neg hxh]
    unfold lockedOrZero
    rw [lockAdjust_lookup_ne s h0 x g hxh]

theorem fold_inc_lockedOrZero {V : Type} (hs : List String) (s : Store V)
    (x : String) (hx : (storeLookup s x).isSome = true) :
    lockedOrZero (hs.foldl (fun st h => lockAdjust st h (· + 1)) s) x =
      lockedOrZero s x + hs.count x := by
  induction hs generalizing s with
  | nil => simp
  | cons h0 rest ih =>
    have hx' : (storeLookup (lockAdjust s h0 (· + 1)) x).isSome = true := by
      rw [lockAdjust_isSome]; exact hx
    rw [List.foldl_cons, ih (lockAdjust s h0 (· + 1)) hx',
      lockedOrZero_lockAdjust_step s h0 x (· + 1) hx, List.count_cons]
    by_cases hxh : x = h0
    · rw [if_pos hxh]
      simp [hxh]
      omega
    · have hbeq : (h0 == x) = false :=
        beq_eq_false_iff_ne.mpr (fun hh => hxh hh.symm)
      rw [if_neg hxh]
      simp [hbeq]

theorem fold_dec_lockedOrZero {V : Type} (hs : List String) (s : Store V)
    (x : String) (hx : (storeLookup s x).isSome = true) :
    lockedOrZero (hs.foldl (fun st h => lockAdjust st h (· - 1)) s) x =
      lockedOrZero s x - hs.count x := by
  induction hs generalizing s with
  | nil => simp
  | cons h0 rest ih =>
    have hx' : (storeLookup (lockAdjust s h0 (· - 1)) x).isSome = true := by
      rw [lockAdjust_isSome]; exact hx
    rw [List.foldl_cons, ih (lockAdjust s h0 (· - 1)) hx',
      lockedOrZero_lockAdjust_step s h0 x (· - 1) hx, List.count_cons]
    by_cases hxh : x = h0
    · rw [if_pos hxh]
      simp [hxh]
      omega
    · have hbeq : (h0 == x) = false :=
        beq_eq_false_iff_ne.mpr (fun hh => hxh hh.symm)
      rw [if_neg hxh]
      simp [hbeq]

theorem inc_dec_cancel {V : Type} (hs : List String) (s : Store V)
    (x : String) :
    lockedOrZero (hs.foldl (fun st h => lockAdjust st h (· - 1))
      (hs.foldl (fun st h => lockAdjust st h (· + 1)) s)) x =
      lockedOrZero s x := by
  cases hx : storeLookup s x with
  | none =>
    have h1 := fold_lockAdjust_none (· + 1) hs s x hx
    have h2 := fold_lockAdjust_none (· - 1) hs _ x h1
    unfold lockedOrZero
    rw [h2, hx]
  | some cv =>
    have hx1 : (storeLookup s x).isSome = true := by rw [hx]; rfl
    have h1 := fold_inc_lockedOrZero hs s x hx1
    have hx2 : (storeLookup
        (hs.foldl (fun st h => lockAdjust st h (· + 1)) s) x).isSome = true := by
      rw [fold_lockAdjust_isSome]; exact hx1
    have h2 := fold_dec_lockedOrZero hs _ x hx2
    rw [h2, h1]
    omega

theorem lockAdjust_inc_dec {V : Type} (s : Store V) (h x : String) :
    lockedOrZero (lockAdjust (lockAdjust s h (· + 1)) h (· - 1)) x =
      lockedOrZero s x := by
  have := inc_dec_cancel [h] s x
  simpa using this

theorem isExpired_none {V : Type} (cfg : CacheOptions) (s : Store V)
    (h : String) (now : Int) (hex : cfg.expiry = none) :
    isExpired cfg s h now = false := by
  simp [isExpired, hex]

theorem shrinkCache_noop {V : Type} (lck : Bool) (cfg : CacheOptions)
    (s : Store V) (now : Int) (hsz : cfg.size = none)
    (hex : cfg.expiry = none) :
    shrinkCache lck cfg s now = ⟨s, [], false⟩ := by
  cases lck <;> simp [shrinkCache, hsz, hex]

theorem lockedOrZero_eq_zero_of_not_mem {V : Type} (s : Store V) (x : String)
    (h : storeMem s x = false) : lockedOrZero s x = 0 := by
  unfold storeMem at h
  unfold lockedOrZero
  cases hl : storeLookup s x with
  | none => rfl
  | some cv => rw [hl] at h; simp at h

theorem storeMem_set_ne {V : Type} (s : Store V) (h x : String)
    (cv : CachedValue V) (hne : x ≠ h) :
    storeMem (storeSet s h cv) x = storeMem s x := by
  unfold storeMem
  rw [storeLookup_set_ne s h x cv hne]

theorem getOrInsert_lockedOrZero {K V : Type} (cfg : CacheOptions)
    (create : K → Option (V × Option Bool)) (hasher : K → String)
    (s : Store V) (key : K) (now : Int) (hsz : cfg.size = none)
    (hex : cfg.expiry = none) (x : String) :
    lockedOrZero (getOrInsertCachedValue cfg create hasher s key now).store x =
      lockedOrZero s x := by
  unfold getOrInsertCachedValue
  dsimp only
  rw [isExpired_none cfg s (hasher key) now hex]
  cases hmem : storeMem s (hasher key) with
  | false =>
    simp only [hmem, Bool.not_false, Bool.true_or, if_true]
    unfold addToStore
    cases hc : create key with
    | none => rfl
    | some vd =>
      obtain ⟨v, d⟩ := vd
      dsimp only
      rw [shrinkCache_noop false cfg _ now hsz hex]
      rw [if_neg (by exact Bool.false_ne_true)]
      by_cases hxh : x = hasher key
      · rw [hxh]
        unfold lockedOrZero
        rw [storeLookup_set_self]
        unfold storeMem at hmem
        cases hl : storeLookup s (hasher key) with
        | none => rfl
        | some cv => rw [hl] at hmem; simp at hmem
      · unfold lockedOrZero
        rw [storeLookup_set_ne s (hasher key) x _ hxh]
  | true =>
    simp only [hmem, Bool.not_true, Bool.false_or, if_false]
    rw [if_neg (by exact Bool.false_ne_true)]
    obtain ⟨cv, hcv⟩ : ∃ cv, storeLookup s (hasher key) = some cv := by
      unfold storeMem at hmem
      cases hl : storeLookup s (hasher key) with
      | none => rw [hl] at hmem; simp at hmem
      | some cv => exact ⟨cv, rfl⟩
    rw [hcv]
    dsimp only
    by_cases hxh : x = hasher key
    · rw [hxh]
      unfold lockedOrZero
      rw [storeLookup_set_self, hcv]
    · unfold lockedOrZero
      rw [storeLookup_set_ne s (hasher key) x _ hxh]

theorem fetchStart_inv {K V : Type} (cfg : CacheOptions)
    (create : K → Option (V × Option Bool)) (hasher : K → String)
    (s : Store V) (acc : FetchAcc V) (kn : K × Int) (hex : cfg.expiry = none)
    (hinv1 : ∀ x, lockedOrZero acc.store x = lockedOrZero s x)
    (hinv2 : ∀ q ∈ acc.pending, storeMem acc.store q.1 = false ∧
      ∀ cvp, q.2.1 = some cvp → cvp.locked = 0) :
    (∀ x, lockedOrZero (fetchStart cfg create hasher acc kn).store x =
      lockedOrZero s x) ∧
    (∀ q ∈ (fetchStart cfg create hasher acc kn).pending,
      storeMem (fetchStart cfg create hasher acc kn).store q.1 = false ∧
      ∀ cvp, q.2.1 = some cvp → cvp.locked = 0) := by
  unfold fetchStart
  by_cases hin : hasher kn.1 ∈ acc.initSet
  · rw [if_pos hin]
    exact ⟨hinv1, hinv2⟩
  · rw [if_neg hin]
    rw [isExpired_none cfg acc.store (hasher kn.1) kn.2 hex]
    cases hmem : storeMem acc.store (hasher kn.1) with
    | true =>
      simp only [hmem, Bool.not_false, Bool.and_true, if_true]
      obtain ⟨cv, hcv⟩ : ∃ cv, storeLookup acc.store (hasher kn.1) = some cv := by
        unfold storeMem at hmem
        cases hl : storeLookup acc.store (hasher kn.1) with
        | none => rw [hl] at hmem; simp at hmem
        | some cv => exact ⟨cv, rfl⟩
      rw [hcv]
      dsimp only
      constructor
      · intro x
        by_cases hxh : x = hasher kn.1
        · rw [hxh, ← hinv1 (hasher kn.1)]
          unfold lockedOrZero
          rw [storeLookup_set_self, hcv]
        · rw [← hinv1 x]
          unfold lockedOrZero
          rw [storeLookup_set_ne acc.store (hasher kn.1) x _ hxh]
      · intro q hq
        obtain ⟨hq1, hq2⟩ := hinv2 q hq
        refine ⟨?_, hq2⟩
        have hqne : q.1 ≠ hasher kn.1 := by
          intro hh
          rw [hh] at hq1
          rw [hq1] at hmem
          exact Bool.false_ne_true hmem
        rw [storeMem_set_ne acc.store (hasher kn.1) q.1 _ hqne]
        exact hq1
    | false =>
      simp only [hmem, Bool.false_and, if_false]
      cases hc : create kn.1 with
      | none =>
        dsimp only
        refine ⟨hinv1, ?_⟩
        intro q hq
        rcases List.mem_append.mp hq with hq' | hq'
        · exact hinv2 q hq'
        · obtain rfl : q = (hasher kn.1, none, kn.2) := List.mem_singleton.mp hq'
          exact ⟨hmem, fun cvp hcvp => by simp at hcvp⟩
      | some vd =>
        obtain ⟨v, d⟩ := vd
        dsimp only
        refine ⟨hinv1, ?_⟩
        intro q hq
        rcases List.mem_append.mp hq with hq' | hq'
        · exact hinv2 q hq'
        · obtain rfl : q = (hasher kn.1, some ⟨v, kn.2, kn.2, 0, d⟩, kn.2) :=
            List.mem_singleton.mp hq'
          refine ⟨hmem, fun cvp hcvp => ?_⟩
          simp at hcvp
          rw [← hcvp]

theorem fold_fetchStart_inv {K V : Type} (cfg : CacheOptions)
    (create : K → Option (V × Option Bool)) (hasher : K → String)
    (s : Store V) (l : List (K × Int)) (acc : FetchAcc V)
    (hex : cfg.expiry = none)
    (hinv1 : ∀ x, lockedOrZero acc.store x = lockedOrZero s x)
    (hinv2 : ∀ q ∈ acc.pending, storeMem acc.store q.1 = false ∧
      ∀ cvp, q.2.1 = some cvp → cvp.locked = 0) :
    (∀ x, lockedOrZero
      (l.foldl (fetchStart cfg create hasher) acc).store x =
      lockedOrZero s x) ∧
    (∀ q ∈ (l.foldl (fetchStart cfg create hasher) acc).pending,
      storeMem (l.foldl (fetchStart cfg create hasher) acc).store q.1 =
        false ∧
      ∀ cvp, q.2.1 = some cvp → cvp.locked = 0) := by
  induction l generalizing acc with
  | nil => exact ⟨hinv1, hinv2⟩
  | cons kn rest ih =>
    obtain ⟨h1, h2⟩ := fetchStart_inv cfg create hasher s acc kn hex hinv1 hinv2
    exact ih (fetchStart cfg create hasher acc kn) h1 h2

theorem permuteBy_mem {A : Type} (π : List Nat) (l : List A) (x : A)
    (hx : x ∈ permuteBy π l) : x ∈ l := by
  unfold permuteBy at hx
  obtain ⟨i, _, hget⟩ := List.mem_filterMap.mp hx
  exact List.get?_mem hget

theorem fold_publishEntry_inv {V : Type} (cfg : CacheOptions)
    (l : List (String × Option (CachedValue V) × Int))
    (st : Store V × List String) (s : Store V) (hsz : cfg.size = none)
    (hex : cfg.expiry = none)
    (hinv1 : ∀ x, lockedOrZero st.1 x = lockedOrZero s x)
    (hl : ∀ q ∈ l, (∀ cvp, q.2.1 = some cvp → cvp.locked = 0) ∧
      lockedOrZero s q.1 = 0) :
    ∀ x, lockedOrZero (l.foldl (publishEntry cfg) st).1 x =
      lockedOrZero s x := by
  induction l generalizing st with
  | nil => exact hinv1
  | cons q rest ih =>
    obtain ⟨hq1, hq2⟩ := hl q (List.mem_cons_self q rest)
    have hstep : ∀ x, lockedOrZero (publishEntry cfg st q).1 x =
        lockedOrZero s x := by
      intro x
      obtain ⟨h0, e, n⟩ := q
      cases e with
      | none => exact hinv1 x
      | some cvp =>
        unfold publishEntry
        dsimp only
        rw [shrinkCache_noop false cfg _ n hsz hex]
        by_cases hxh : x = h0
        · subst hxh
          unfold lockedOrZero
          rw [storeLookup_set_self]
          dsimp only
          rw [hq1 cvp rfl]
          exact hq2.symm
        · unfold lockedOrZero
          rw [storeLookup_set_ne st.1 h0 x _ hxh]
          exact hinv1 x
    exact ih (publishEntry cfg st q) hstep
      (fun q' hq' => hl q' (List.mem_cons_of_mem q hq'))

theorem resolveWaiters_lockedOrZero {V : Type} (slots : List (SlotState V))
    (st : Store V) (x : String) :
    lockedOrZero (resolveWaiters st slots).1 x = lockedOrZero st x := by
  induction slots generalizing st with
  | nil => rfl
  | cons sl rest ih =>
    cases sl with
    | val hh v => exact ih st
    | failedS => exact ih st
    | waitFor hh nn =>
      unfold resolveWaiters
      cases hcv : storeLookup st hh with
      | none =>
        dsimp only
        exact ih st
      | some cv =>
        dsimp only
        rw [ih (storeSet st hh { cv with timestamp := nn })]
        by_cases hxh : x = hh
        · subst hxh
          unfold lockedOrZero
          rw [storeLookup_set_self, hcv]
        · unfold lockedOrZero
          rw [storeLookup_set_ne st hh x _ hxh]

theorem fetchMany_lockedOrZero {K V : Type} (cfg : CacheOptions)
    (create : K → Option (V × Option Bool)) (hasher : K → String)
    (s : Store V) (kns : List (K × Int)) (π : List Nat)
    (hsz : cfg.size = none) (hex : cfg.expiry = none) (x : String) :
    lockedOrZero (fetchMany cfg create hasher s kns π).1 x =
      lockedOrZero s x := by
  unfold fetchMany
  dsimp only
  rw [resolveWaiters_lockedOrZero]
  obtain ⟨ha1, ha2⟩ := fold_fetchStart_inv cfg create hasher s kns
    ⟨s, [], [], []⟩ hex (fun _ => rfl) (by simp)
  refine fold_publishEntry_inv cfg _ _ s hsz hex ha1 ?_ x
  intro q hq
  have hq' := permuteBy_mem π _ q hq
  obtain ⟨hq1, hq2⟩ := ha2 q hq'
  refine ⟨hq2, ?_⟩
  rw [← ha1 q.1]
  exact lockedOrZero_eq_zero_of_not_mem _ q.1 hq1

/-- Claim C5 (amended): `getWith` restores every store-observable lock
count before it settles, whatever the fetch and transformer outcomes; and
`getMultipleWith` restores them whenever every underlying fetch succeeds,
whatever the transformer outcome.  When some fetch fails, the increments
already performed by the other keys' handlers are not decremented (see the
counterexample).  Stated for configurations without size/expiry bounds so
that the captured entry objects coincide with their store slots. -/
theorem lock_counts_restored {K V : Type} (cfg : CacheOptions)
    (create : K → Option (V × Option Bool)) (hasher : K → String)
    (s s2 : Store V) (key : K) (now : Int) (tOk : Bool)
    (keysAndNows : List (K × Int)) (π : List Nat) (tOk2 : Bool)
    (hsz : cfg.size = none) (hex : cfg.expiry = none)
    (hff : (getMultipleWith cfg create hasher s2 keysAndNows π
      tOk2).fetchFailed = false) :
    (∀ x, lockedOrZero (getWith cfg create hasher s key now tOk).store x =
      lockedOrZero s x) ∧
    (∀ x, lockedOrZero (getMultipleWith cfg create hasher s2 keysAndNows π
      tOk2).store x = lockedOrZero s2 x) := by
  constructor
  · intro x
    unfold getWith
    dsimp only
    cases hres : (getOrInsertCachedValue cfg create hasher s key now).result with
    | none =>
      exact getOrInsert_lockedOrZero cfg create hasher s key now hsz hex x
    | some cv =>
      dsimp only
      rw [lockAdjust_inc_dec]
      exact getOrInsert_lockedOrZero cfg create hasher s key now hsz hex x
  · have hnf : anyFailed (fetchMany cfg create hasher s2 keysAndNows π).2 =
        false := by
      have hchar : (getMultipleWith cfg create hasher s2 keysAndNows π
          tOk2).fetchFailed =
          anyFailed (fetchMany cfg create hasher s2 keysAndNows π).2 := by
        unfold getMultipleWith
        dsimp only
        split
        · rename_i hsp
          exact hsp.symm
        · rename_i hsp
          simp only [Bool.not_eq_true] at hsp
          exact hsp.symm
      rw [← hchar]
      exact hff
    have hstore : (getMultipleWith cfg create hasher s2 keysAndNows π
        tOk2).store =
        (slotHashes (fetchMany cfg create hasher s2 keysAndNows π).2).foldl
          (fun st h => lockAdjust st h (· - 1))
          ((slotHashes (fetchMany cfg create hasher s2 keysAndNows π).2).foldl
            (fun st h => lockAdjust st h (· + 1))
            (fetchMany cfg create hasher s2 keysAndNows π).1) := by
      unfold getMultipleWith
      dsimp only
      rw [if_neg (by rw [hnf]; exact Bool.false_ne_true)]
    intro x
    rw [hstore, inc_dec_cancel]
    exact fetchMany_lockedOrZero cfg create hasher s2 keysAndNows π hsz hex x

theorem lock_counts_restored_witness :
    (⟨none, none⟩ : CacheOptions).size = none ∧
    (⟨none, none⟩ : CacheOptions).expiry = none ∧
    (getMultipleWith ⟨none, none⟩
      ((fun _ => some (5, none)) : String → Option (Nat × Option Bool))
      (id : String → String) [] [("a", (0 : Int)), ("b", 1)] [1, 0]
      true).fetchFailed = false ∧
    lockedOrZero (getWith ⟨none, none⟩
      ((fun _ => some (5, none)) : String → Option (Nat × Option Bool))
      (id : String → String) [] "a" 0 false).store "a" =
      lockedOrZero ([] : Store Nat) "a" ∧
    lockedOrZero (getMultipleWith ⟨none, none⟩
      ((fun _ => some (5, none)) : String → Option (Nat × Option Bool))
      (id : String → String) [] [("a", (0 : Int)), ("b", 1)] [1, 0]
      true).store "b" = lockedOrZero ([] : Store Nat) "b" :=
  ⟨rfl, rfl, by decide,
    (lock_counts_restored ⟨none, none⟩
      ((fun _ => some (5, none)) : String → Option (Nat × Option Bool))
      (id : String → String) [] [] "a" 0 false
      [("a", (0 : Int)), ("b", 1)] [1, 0] true rfl rfl (by decide)).1 "a",
    (lock_counts_restored ⟨none, none⟩
      ((fun _ => some (5, none)) : String → Option (Nat × Option Bool))
      (id : String → String) [] [] "a" 0 false
      [("a", (0 : Int)), ("b", 1)] [1, 0] true rfl rfl (by decide)).2 "b"⟩

/-- Claim C5 counterexample: `getMultipleWith(["a","b"], …)` where the
factory for `"b"` throws: the handler for `"a"` has already incremented its
entry's lock count when `Promise.all` rejects, the try/finally that would
decrement is never entered, and the call settles rejected with the lock
count of `"a"` still 1 — it does not return to its prior value 0. -/
theorem multi_lock_leak :
    (getMultipleWith ⟨none, none⟩
      ((fun k => if k = "b" then none else some (7, none)) :
        String → Option (Nat × Option Bool))
      (id : String → String) [] [("a", (0 : Int)), ("b", 1)]
      [0, 1] true).settledOk = false ∧
    lockedOrZero ([] : Store Nat) "a" = 0 ∧
    lockedOrZero (getMultipleWith ⟨none, none⟩
      ((fun k => if k = "b" then none else some (7, none)) :
        String → Option (Nat × Option Bool))
      (id : String → String) [] [("a", (0 : Int)), ("b", 1)]
      [0, 1] true).store "a" = 1 :=
  ⟨by decide, rfl, by decide⟩

/-! ### Machine lemmas (claims C1 and C9) -/

theorem trimHandlerSync_store_sublist {V : Type} (acc : TrimPhaseA V)
    (c : String) : (trimHandlerSync acc c).store.Sublist acc.store := by
  unfold trimHandlerSync
  cases storeLookup acc.store c with
  | none => exact List.Sublist.refl _
  | some ccv =>
    dsimp only
    by_cases hlc : ccv.locked > 0
    · rw [if_pos hlc]
    · rw [if_neg hlc]
      cases ccv.destroy with
      | none => exact List.filter_sublist _
      | some b => exact List.Sublist.refl _

theorem foldA_store_sublist {V : Type} (l : List String) (acc : TrimPhaseA V) :
    (l.foldl trimHandlerSync acc).store.Sublist acc.store := by
  induction l generalizing acc with
  | nil => exact List.Sublist.refl _
  | cons c rest ih =>
    exact (ih (trimHandlerSync acc c)).trans (trimHandlerSync_store_sublist acc c)

theorem foldB_store_sublist {V : Type} (l : List (String × Bool))
    (s : Store V) : (l.foldl trimHandlerResume s).Sublist s := by
  induction l generalizing s with
  | nil => exact List.Sublist.refl _
  | cons hb rest ih =>
    refine (ih (trimHandlerResume s hb)).trans ?_
    unfold trimHandlerResume
    by_cases hb2 : hb.2
    · rw [if_pos hb2]
      exact List.filter_sublist _
    · rw [if_neg hb2]

theorem trim_store_sublist {V : Type} (cfg : CacheOptions) (s : Store V)
    (now : Int) : (trim cfg s now).store.Sublist s := by
  unfold trim
  exact (foldB_store_sublist _ _).trans (foldA_store_sublist _ _)

theorem shrinkCache_store_sublist {V : Type} (lck : Bool)
    (cfg : CacheOptions) (s : Store V) (now : Int) :
    (shrinkCache lck cfg s now).store.Sublist s := by
  unfold shrinkCache
  split
  · exact List.Sublist.refl _
  · split
    · exact trim_store_sublist cfg s now
    · exact List.Sublist.refl _

theorem nowOf_update_inv {V : Type} {M : Nat} (th : Fin M → GThread V)
    (ns : Fin M → Int) (ih1 : ∀ i n, nowOf (th i) = some n → n = ns i)
    (i : Fin M) (t : GThread V) (ht : ∀ n, nowOf t = some n → n = ns i) :
    ∀ k n, nowOf (Function.update th i t k) = some n → n = ns k := by
  intro k n hn
  by_cases hki : k = i
  · subst hki
    rw [Function.update_same] at hn
    exact ht n hn
  · rw [Function.update_noteq hki] at hn
    exact ih1 k n hn

/-- One-step preservation of the C9 invariant: every running thread keeps
the clock value captured at issuance (the retry at line 144 reuses it), and
published entries carry issuance-captured timestamps. -/
theorem captured_now_step {V : Type} {M : Nat} (cfg : CacheOptions)
    (fres : Nat → Option (V × Option Bool)) (h : String) (ns : Fin M → Int)
    (S T : GetSys V M) (hstep : GStep cfg fres h S T)
    (ih1 : ∀ i n, nowOf (S.threads i) = some n → n = ns i)
    (ih2 : S.store = [] ∨ ∃ cv : CachedValue V, S.store = [(h, cv)] ∧
      (∃ j, cv.insertionTimestamp = ns j) ∧ (∃ j, cv.timestamp = ns j)) :
    (∀ i n, nowOf (T.threads i) = some n → n = ns i) ∧
    (T.store = [] ∨ ∃ cv : CachedValue V, T.store = [(h, cv)] ∧
      (∃ j, cv.insertionTimestamp = ns j) ∧
      (∃ j, cv.timestamp = ns j)) := by
  cases hstep with
  | issueCreate i now ht hf hc =>
    have hni : now = ns i := ih1 i now (by rw [ht]; rfl)
    refine ⟨nowOf_update_inv S.threads ns ih1 i _ ?_, ih2⟩
    intro n hn
    simp [nowOf] at hn
    rw [← hn]
    exact hni
  | issueWait i now ht hf =>
    have hni : now = ns i := ih1 i now (by rw [ht]; rfl)
    refine ⟨nowOf_update_inv S.threads ns ih1 i _ ?_, ih2⟩
    intro n hn
    simp [nowOf] at hn
    rw [← hn]
    exact hni
  | issueHit i now cv ht hf hm he =>
    have hni : now = ns i := ih1 i now (by rw [ht]; rfl)
    refine ⟨nowOf_update_inv S.threads ns ih1 i _ ?_, ?_⟩
    · intro n hn
      simp [nowOf] at hn
    · rcases ih2 with hst | ⟨cv0, hst, hins, hts⟩
      · rw [hst] at hm
        simp [storeLookup] at hm
      · rw [hst] at hm
        simp [storeLookup] at hm
        refine Or.inr ⟨{ cv0 with timestamp := now }, ?_, hins, ⟨i, hni⟩⟩
        rw [hst]
        simp [storeSet, hm]
  | resolveFactory i now idx v d hall ht hres =>
    have hni : now = ns i := ih1 i now (by rw [ht]; rfl)
    refine ⟨nowOf_update_inv S.threads ns ih1 i _ ?_, ?_⟩
    · intro n hn
      simp [nowOf] at hn
      rw [← hn]
      exact hni
    · rcases ih2 with hst | ⟨cv0, hst, hi0, ht0⟩
      · rw [hst]
        exact Or.inr ⟨⟨v, now, now, 0, d⟩, by simp [storeSet], ⟨i, hni⟩, ⟨i, hni⟩⟩
      · rw [hst]
        exact Or.inr ⟨⟨v, now, now, 0, d⟩, by simp [storeSet], ⟨i, hni⟩, ⟨i, hni⟩⟩
  | rejectFactory i now idx hall ht hres =>
    refine ⟨nowOf_update_inv S.threads ns ih1 i _ ?_, ih2⟩
    intro n hn
    simp [nowOf] at hn
  | trimStep i now v hall ht =>
    refine ⟨nowOf_update_inv S.threads ns ih1 i _ ?_, ?_⟩
    · intro n hn
      cases hc : (shrinkCache false cfg S.store now).errored <;>
        rw [hc] at hn <;> simp [nowOf] at hn
    · rcases ih2 with hst | ⟨cv0, hst, hins, hts⟩
      · have hsub := shrinkCache_store_sublist false cfg S.store now
        rw [hst, List.sublist_nil] at hsub
        rw [hst]
        exact Or.inl hsub
      · have hsub := shrinkCache_store_sublist false cfg S.store now
        rw [hst] at hsub
        rw [hst]
        rcases List.sublist_singleton.mp hsub with hres' | hres'
        · exact Or.inl hres'
        · exact Or.inr ⟨cv0, hres', hins, hts⟩
  | wake i now hall ht hf =>
    have hni : now = ns i := ih1 i now (by rw [ht]; rfl)
    refine ⟨nowOf_update_inv S.threads ns ih1 i _ ?_, ih2⟩
    intro n hn
    simp [nowOf] at hn
    rw [← hn]
    exact hni
  | wokenHit i now cv hall ht hm =>
    have hni : now = ns i := ih1 i now (by rw [ht]; rfl)
    refine ⟨nowOf_update_inv S.threads ns ih1 i _ ?_, ?_⟩
    · intro n hn
      simp [nowOf] at hn
    · rcases ih2 with hst | ⟨cv0, hst, hins, hts⟩
      · rw [hst] at hm
        simp [storeLookup] at hm
      · rw [hst] at hm
        simp [storeLookup] at hm
        refine Or.inr ⟨{ cv0 with timestamp := now }, ?_, hins, ⟨i, hni⟩⟩
        rw [hst]
        simp [storeSet, hm]
  | wokenRetryCreate i now hall ht hm hf =>
    have hni : now = ns i := ih1 i now (by rw [ht]; rfl)
    refine ⟨nowOf_update_inv S.threads ns ih1 i _ ?_, ih2⟩
    intro n hn
    simp [nowOf] at hn
    rw [← hn]
    exact hni
  | wokenRetryWait i now hall ht hm hf =>
    have hni : now = ns i := ih1 i now (by rw [ht]; rfl)
    refine ⟨nowOf_update_inv S.threads ns ih1 i _ ?_, ih2⟩
    intro n hn
    simp [nowOf] at hn
    rw [← hn]
    exact hni

/-- The C9 invariant holds in every reachable state. -/
theorem captured_now_invariant {V : Type} {M : Nat} (cfg : CacheOptions)
    (fres : Nat → Option (V × Option Bool)) (h : String) (ns : Fin M → Int)
    (S : GetSys V M)
    (hreach : GReach cfg fres h (initSys ns) S) :
    (∀ i n, nowOf (S.threads i) = some n → n = ns i) ∧
    (S.store = [] ∨ ∃ cv : CachedValue V, S.store = [(h, cv)] ∧
      (∃ j, cv.insertionTimestamp = ns j) ∧
      (∃ j, cv.timestamp = ns j)) := by
  induction hreach with
  | refl =>
    refine ⟨?_, Or.inl rfl⟩
    intro i n hn
    simp [initSys, nowOf] at hn
    exact hn.symm
  | tail hab hstep ih =>
    exact captured_now_step cfg fres h ns _ _ hstep ih.1 ih.2

theorem store_timestamps_from_issuance {V : Type} {M : Nat}
    (cfg : CacheOptions) (fres : Nat → Option (V × Option Bool)) (h : String)
    (ns : Fin M → Int) (S : GetSys V M) (cv : CachedValue V)
    (hreach : GReach cfg fres h (initSys ns) S)
    (hm : storeLookup S.store h = some cv) :
    (∃ j, cv.insertionTimestamp = ns j) ∧ (∃ j, cv.timestamp = ns j) := by
  obtain ⟨-, hstore⟩ := captured_now_invariant cfg fres h ns S hreach
  rcases hstore with hst | ⟨cv0, hst, hins, hts⟩
  · rw [hst] at hm
    simp [storeLookup] at hm
  · rw [hst] at hm
    simp [storeLookup] at hm
    rw [← hm]
    exact ⟨hins, hts⟩

theorem store_timestamps_from_issuance_witness :
    storeLookup [("h", (⟨9, 3, 3, 0, none⟩ : CachedValue Nat))] "h" =
      some ⟨9, 3, 3, 0, none⟩ ∧
    ((∃ j : Fin 1, (⟨9, 3, 3, 0, (none : Option Bool)⟩ :
        CachedValue Nat).insertionTimestamp = (fun _ => (3 : Int)) j) ∧
    (∃ j : Fin 1, (⟨9, 3, 3, 0, (none : Option Bool)⟩ :
        CachedValue Nat).timestamp = (fun _ => (3 : Int)) j)) := by
  exact ⟨rfl, store_timestamps_from_issuance (M := 1) ⟨none, none⟩
    (fun _ => some (9, none)) "h" (fun _ => (3 : Int)) _
    ⟨9, 3, 3, 0, none⟩
    (Relation.ReflTransGen.head
      (GStep.issueCreate _ 0 3 rfl rfl (by decide))
      (Relation.ReflTransGen.single
        (GStep.resolveFactory _ 0 3 0 9 none (by decide) (by decide) rfl)))
    rfl⟩

theorem validOptions_size {cfg : CacheOptions} {sz : Nat}
    (hv : validOptions cfg = true) (hcs : cfg.size = some sz) : 0 < sz := by
  unfold validOptions at hv
  rw [hcs, Bool.and_eq_true] at hv
  exact of_decide_eq_true hv.1

theorem validOptions_expiry {cfg : CacheOptions} {e : Int}
    (hv : validOptions cfg = true) (hce : cfg.expiry = some e) : 0 < e := by
  unfold validOptions at hv
  rw [hce, Bool.and_eq_true] at hv
  exact of_decide_eq_true hv.2

theorem trimCandidates_single_fresh {V : Type} (cfg : CacheOptions)
    (h : String) (cv : CachedValue V) (now : Int)
    (hv : validOptions cfg = true) (hins : cv.insertionTimestamp = now) :
    trimCandidates cfg [(h, cv)] now = [] := by
  unfold trimCandidates
  have h1 : oldestValues cfg [(h, cv)] = [] := by
    unfold oldestValues
    cases hcs : cfg.size with
    | none => rfl
    | some sz =>
      have hsz : 0 < sz := validOptions_size hv hcs
      show List.map Prod.fst
        (List.drop sz ((sortByTimestamp [(h, cv)]).reverse)) = []
      rw [List.drop_eq_nil_of_le (by simp [sortByTimestamp, insertByTimestamp]; omega)]
      rfl
  have h2 : expiredValues cfg [(h, cv)] now = [] := by
    unfold expiredValues
    cases hce : cfg.expiry with
    | none => rfl
    | some e =>
      have he : 0 < e := validOptions_expiry hv hce
      have hne : isExpired cfg [(h, cv)] h now = false := by
        have hlook : storeLookup [(h, cv)] h = some cv := by simp [storeLookup]
        simp only [isExpired, hce, hlook]
        rw [if_pos (show e ≠ 0 by omega), hins]
        exact decide_eq_false (by omega)
      show (List.map Prod.fst [(h, cv)]).filter
        (fun hh => isExpired cfg [(h, cv)] hh now) = []
      simp [hne]
  rw [h1, h2]
  rfl

theorem shrinkCache_single_fresh {V : Type} (cfg : CacheOptions) (h : String)
    (cv : CachedValue V) (now : Int) (hv : validOptions cfg = true)
    (hins : cv.insertionTimestamp = now) :
    shrinkCache false cfg [(h, cv)] now = ⟨[(h, cv)], [], false⟩ := by
  unfold shrinkCache
  rw [if_neg (by simp)]
  split
  · unfold trim
    rw [trimCandidates_single_fresh cfg h cv now hv hins]
    rfl
  · rfl

/-- One-step preservation of the single-flight phase invariant, for an
episode whose first factory invocation succeeds with `v0`. -/
theorem c1_step {V : Type} {M : Nat} (cfg : CacheOptions)
    (fres : Nat → Option (V × Option Bool)) (h : String) (v0 : V)
    (d0 : Option Bool) (S T : GetSys V M) (hv : validOptions cfg = true)
    (hf0 : fres 0 = some (v0, d0)) (hstep : GStep cfg fres h S T)
    (ih : C1Inv h v0 S) : C1Inv h v0 T := by
  cases hstep with
  | issueCreate i now ht hf hc =>
    dsimp only [C1Inv]
    rcases ih with ⟨hst, hfl, hfc, hth⟩ | ⟨hst, hfl, hfc, j, n, hj, hoth⟩ |
      ⟨cv, hst, hval, hfl, hfc, j, hj, hoth⟩ | ⟨cv, hst, hval, hfl, hfc, hth⟩
    · refine Or.inr (Or.inl ⟨hst, rfl, by omega, i, now, ?_, ?_⟩)
      · rw [Function.update_same, hfc]
      · intro k hk
        rw [Function.update_noteq hk]
        exact Or.inl (hth k)
    · rw [hfl] at hf
      exact Bool.noConfusion hf
    · rw [hfl] at hf
      exact Bool.noConfusion hf
    · rcases hth i with ⟨m, hm'⟩ | ⟨m, hm'⟩ | hm' <;> rw [hm'] at ht <;>
        simp at ht
  | issueWait i now ht hf =>
    dsimp only [C1Inv]
    rcases ih with ⟨hst, hfl, hfc, hth⟩ | ⟨hst, hfl, hfc, j, n, hj, hoth⟩ |
      ⟨cv, hst, hval, hfl, hfc, j, hj, hoth⟩ | ⟨cv, hst, hval, hfl, hfc, hth⟩
    · rw [hfl] at hf
      exact Bool.noConfusion hf
    · have hij : i ≠ j := by
        intro hh
        rw [hh, hj] at ht
        simp at ht
      refine Or.inr (Or.inl ⟨hst, hfl, hfc, j, n, ?_, ?_⟩)
      · rw [Function.update_noteq (fun hh => hij hh.symm)]
        exact hj
      · intro k hk
        by_cases hki : k = i
        · subst hki
          rw [Function.update_same]
          exact Or.inr ⟨now, rfl⟩
        · rw [Function.update_noteq hki]
          exact hoth k hk
    · by_cases hij : i = j
      · rw [hij, hj] at ht
        simp at ht
      · obtain ⟨m, hm'⟩ := hoth i hij
        rw [hm'] at ht
        simp at ht
    · rcases hth i with ⟨m, hm'⟩ | ⟨m, hm'⟩ | hm' <;> rw [hm'] at ht <;>
        simp at ht
  | issueHit i now cv ht hf hm he =>
    dsimp only [C1Inv]
    rcases ih with ⟨hst, hfl, hfc, hth⟩ | ⟨hst, hfl, hfc, j, n, hj, hoth⟩ |
      ⟨cv0, hst, hval, hfl, hfc, j, hj, hoth⟩ |
      ⟨cv0, hst, hval, hfl, hfc, hth⟩
    · rw [hst] at hm
      simp [storeLookup] at hm
    · rw [hfl] at hf
      exact Bool.noConfusion hf
    · rw [hfl] at hf
      exact Bool.noConfusion hf
    · rcases hth i with ⟨m, hm'⟩ | ⟨m, hm'⟩ | hm' <;> rw [hm'] at ht <;>
        simp at ht
  | resolveFactory i now idx v d hall ht hres =>
    dsimp only [C1Inv]
    rcases ih with ⟨hst, hfl, hfc, hth⟩ | ⟨hst, hfl, hfc, j, n, hj, hoth⟩ |
      ⟨cv, hst, hval, hfl, hfc, j, hj, hoth⟩ | ⟨cv, hst, hval, hfl, hfc, hth⟩
    · obtain ⟨m, hm'⟩ := hth i
      rw [hm'] at ht
      simp at ht
    · have hij : i = j := by
        by_cases hij : i = j
        · exact hij
        · rcases hoth i hij with ⟨m, hm'⟩ | ⟨m, hm'⟩ <;> rw [hm'] at ht <;>
            simp at ht
      subst hij
      rw [hj] at ht
      injection ht with h1 h2
      subst h1
      rw [← h2] at hres
      rw [hf0] at hres
      simp only [Option.some.injEq, Prod.mk.injEq] at hres
      obtain ⟨hv0, hd0⟩ := hres
      refine Or.inr (Or.inr (Or.inl ⟨⟨v, n, n, 0, d⟩, ?_, hv0.symm, hfl,
        hfc, i, ?_, ?_⟩))
      · rw [hst]
        rfl
      · rw [Function.update_same]
        rw [hv0]
      · intro k hk
        rw [Function.update_noteq hk]
        rcases hoth k hk with ⟨m, hm'⟩ | hw
        · have hk' := hall k
          rw [hm'] at hk'
          simp [isNotIssued] at hk'
        · exact hw
    · by_cases hij : i = j
      · rw [hij, hj] at ht
        simp at ht
      · obtain ⟨m, hm'⟩ := hoth i hij
        rw [hm'] at ht
        simp at ht
    · rcases hth i with ⟨m, hm'⟩ | ⟨m, hm'⟩ | hm' <;> rw [hm'] at ht <;>
        simp at ht
  | rejectFactory i now idx hall ht hres =>
    dsimp only [C1Inv]
    rcases ih with ⟨hst, hfl, hfc, hth⟩ | ⟨hst, hfl, hfc, j, n, hj, hoth⟩ |
      ⟨cv, hst, hval, hfl, hfc, j, hj, hoth⟩ | ⟨cv, hst, hval, hfl, hfc, hth⟩
    · obtain ⟨m, hm'⟩ := hth i
      rw [hm'] at ht
      simp at ht
    · have hij : i = j := by
        by_cases hij : i = j
        · exact hij
        · rcases hoth i hij with ⟨m, hm'⟩ | ⟨m, hm'⟩ <;> rw [hm'] at ht <;>
            simp at ht
      subst hij
      rw [hj] at ht
      injection ht with h1 h2
      rw [← h2] at hres
      rw [hf0] at hres
      exact Option.noConfusion hres
    · by_cases hij : i = j
      · rw [hij, hj] at ht
        simp at ht
      · obtain ⟨m, hm'⟩ := hoth i hij
        rw [hm'] at ht
        simp at ht
    · rcases hth i with ⟨m, hm'⟩ | ⟨m, hm'⟩ | hm' <;> rw [hm'] at ht <;>
        simp at ht
  | trimStep i now v hall ht =>
    dsimp only [C1Inv]
    rcases ih with ⟨hst, hfl, hfc, hth⟩ | ⟨hst, hfl, hfc, j, n, hj, hoth⟩ |
      ⟨cv, hst, hval, hfl, hfc, j, hj, hoth⟩ | ⟨cv, hst, hval, hfl, hfc, hth⟩
    · obtain ⟨m, hm'⟩ := hth i
      rw [hm'] at ht
      simp at ht
    · by_cases hij : i = j
      · rw [hij, hj] at ht
        simp at ht
      · rcases hoth i hij with ⟨m, hm'⟩ | ⟨m, hm'⟩ <;> rw [hm'] at ht <;>
          simp at ht
    · have hij : i = j := by
        by_cases hij : i = j
        · exact hij
        · obtain ⟨m, hm'⟩ := hoth i hij
          rw [hm'] at ht
          simp at ht
      subst hij
      rw [hj] at ht
      injection ht with h1 h2
      have hins : cv.insertionTimestamp = now := h1
      have hshr := shrinkCache_single_fresh cfg h cv now hv hins
      refine Or.inr (Or.inr (Or.inr ⟨cv, ?_, hval, rfl, hfc, ?_⟩))
      · rw [hst, hshr]
      · intro k
        by_cases hki : k = i
        · subst hki
          rw [Function.update_same]
          refine Or.inr (Or.inr ?_)
          rw [hst, hshr]
          simp
          rw [← h2]
        · rw [Function.update_noteq hki]
          exact Or.inl (hoth k hki)
    · rcases hth i with ⟨m, hm'⟩ | ⟨m, hm'⟩ | hm' <;> rw [hm'] at ht <;>
        simp at ht
  | wake i now hall ht hf =>
    dsimp only [C1Inv]
    rcases ih with ⟨hst, hfl, hfc, hth⟩ | ⟨hst, hfl, hfc, j, n, hj, hoth⟩ |
      ⟨cv, hst, hval, hfl, hfc, j, hj, hoth⟩ | ⟨cv, hst, hval, hfl, hfc, hth⟩
    · obtain ⟨m, hm'⟩ := hth i
      rw [hm'] at ht
      simp at ht
    · rw [hfl] at hf
      exact Bool.noConfusion hf
    · rw [hfl] at hf
      exact Bool.noConfusion hf
    · refine Or.inr (Or.inr (Or.inr ⟨cv, hst, hval, hfl, hfc, ?_⟩))
      intro k
      by_cases hki : k = i
      · subst hki
        rw [Function.update_same]
        exact Or.inr (Or.inl ⟨now, rfl⟩)
      · rw [Function.update_noteq hki]
        exact hth k
  | wokenHit i now cv hall ht hm =>
    dsimp only [C1Inv]
    rcases ih with ⟨hst, hfl, hfc, hth⟩ | ⟨hst, hfl, hfc, j, n, hj, hoth⟩ |
      ⟨cv0, hst, hval, hfl, hfc, j, hj, hoth⟩ |
      ⟨cv0, hst, hval, hfl, hfc, hth⟩
    · rw [hst] at hm
      simp [storeLookup] at hm
    · rw [hst] at hm
      simp [storeLookup] at hm
    · by_cases hij : i = j
      · rw [hij, hj] at ht
        simp at ht
      · obtain ⟨m, hm'⟩ := hoth i hij
        rw [hm'] at ht
        simp at ht
    · rw [hst] at hm
      simp [storeLookup] at hm
      refine Or.inr (Or.inr (Or.inr ⟨{ cv0 with timestamp := now }, ?_,
        hval, hfl, hfc, ?_⟩))
      · rw [hst]
        simp [storeSet, hm]
      · intro k
        by_cases hki : k = i
        · subst hki
          rw [Function.update_same]
          refine Or.inr (Or.inr ?_)
          rw [← hm, hval]
        · rw [Function.update_noteq hki]
          exact hth k
  | wokenRetryCreate i now hall ht hm hf =>
    dsimp only [C1Inv]
    rcases ih with ⟨hst, hfl, hfc, hth⟩ | ⟨hst, hfl, hfc, j, n, hj, hoth⟩ |
      ⟨cv, hst, hval, hfl, hfc, j, hj, hoth⟩ | ⟨cv, hst, hval, hfl, hfc, hth⟩
    · obtain ⟨m, hm'⟩ := hth i
      rw [hm'] at ht
      simp at ht
    · rw [hfl] at hf
      exact Bool.noConfusion hf
    · rw [hfl] at hf
      exact Bool.noConfusion hf
    · rw [hst] at hm
      simp [storeLookup] at hm
  | wokenRetryWait i now hall ht hm hf =>
    dsimp only [C1Inv]
    rcases ih with ⟨hst, hfl, hfc, hth⟩ | ⟨hst, hfl, hfc, j, n, hj, hoth⟩ |
      ⟨cv, hst, hval, hfl, hfc, j, hj, hoth⟩ | ⟨cv, hst, hval, hfl, hfc, hth⟩
    · obtain ⟨m, hm'⟩ := hth i
      rw [hm'] at ht
      simp at ht
    · by_cases hij : i = j
      · rw [hij, hj] at ht
        simp at ht
      · rcases hoth i hij with ⟨m, hm'⟩ | ⟨m, hm'⟩ <;> rw [hm'] at ht <;>
          simp at ht
    · rw [hst] at hm
      simp [storeLookup] at hm
    · rw [hst] at hm
      simp [storeLookup] at hm

/-- The single-flight phase invariant holds in every reachable state of an
episode started on an empty store whose first factory invocation succeeds. -/
theorem c1_invariant {V : Type} {M : Nat} (cfg : CacheOptions)
    (fres : Nat → Option (V × Option Bool)) (h : String) (v0 : V)
    (d0 : Option Bool) (ns : Fin M → Int) (S : GetSys V M)
    (hv : validOptions cfg = true) (hf0 : fres 0 = some (v0, d0))
    (hreach : GReach cfg fres h (initSys ns) S) : C1Inv h v0 S := by
  induction hreach with
  | refl => exact Or.inl ⟨rfl, rfl, rfl, fun i => ⟨ns i, rfl⟩⟩
  | tail hab hstep ih => exact c1_step cfg fres h v0 d0 _ _ hv hf0 hstep ih

/-- Claim C1 (amended): for M ≥ 1 logically-concurrent `get` calls of one
key issued before any completes, on a store with no entry for the key's
hash (modelled as initially empty, so that the triggered trim pass cannot
reject — see the counterexample for a rejecting configuration), with a
succeeding factory: once all calls have settled, the factory was invoked
exactly once and every call resolved to the same published value `v0`. -/
theorem single_flight {V : Type} {M : Nat} (cfg : CacheOptions)
    (fres : Nat → Option (V × Option Bool)) (h : String) (v0 : V)
    (d0 : Option Bool) (ns : Fin M → Int) (S : GetSys V M)
    (hv : validOptions cfg = true) (hf0 : fres 0 = some (v0, d0))
    (hM : 0 < M) (hreach : GReach cfg fres h (initSys ns) S)
    (hdone : ∀ i, settledThread (S.threads i) = true) :
    S.factoryCalls = 1 ∧ ∀ i, S.threads i = GThread.doneT v0 := by
  have hinv := c1_invariant cfg fres h v0 d0 ns S hv hf0 hreach
  rcases hinv with ⟨hst, hfl, hfc, hth⟩ | ⟨hst, hfl, hfc, j, n, hj, hoth⟩ |
    ⟨cv, hst, hval, hfl, hfc, j, hj, hoth⟩ | ⟨cv, hst, hval, hfl, hfc, hth⟩
  · obtain ⟨n, hn⟩ := hth ⟨0, hM⟩
    have hd := hdone ⟨0, hM⟩
    rw [hn] at hd
    simp [settledThread] at hd
  · have hd := hdone j
    rw [hj] at hd
    simp [settledThread] at hd
  · have hd := hdone j
    rw [hj] at hd
    simp [settledThread] at hd
  · refine ⟨hfc, ?_⟩
    intro i
    rcases hth i with ⟨m, hm'⟩ | ⟨m, hm'⟩ | hm'
    · have hd := hdone i
      rw [hm'] at hd
      simp [settledThread] at hd
    · have hd := hdone i
      rw [hm'] at hd
      simp [settledThread] at hd
    · exact hm'

theorem single_flight_witness :
    validOptions ⟨none, none⟩ = true ∧
    ((fun _ => some (7, none)) : Nat → Option (Nat × Option Bool)) 0 =
      some (7, none) ∧
    (0 : Nat) < 1 ∧
    ((⟨[("h", ⟨7, 5, 5, 0, none⟩)], false,
        Function.update (Function.update (Function.update
          (fun _ : Fin 1 => GThread.notIssued (V := Nat) 5) 0
          (GThread.creating 5 0)) 0 (GThread.trimming 5 7)) 0
          (GThread.doneT 7), 1⟩ : GetSys Nat 1).factoryCalls = 1 ∧
      (⟨[("h", ⟨7, 5, 5, 0, none⟩)], false,
        Function.update (Function.update (Function.update
          (fun _ : Fin 1 => GThread.notIssued (V := Nat) 5) 0
          (GThread.creating 5 0)) 0 (GThread.trimming 5 7)) 0
          (GThread.doneT 7), 1⟩ : GetSys Nat 1).threads 0 =
        GThread.doneT 7) := by
  have happ := single_flight (M := 1) ⟨none, none⟩
    ((fun _ => some (7, none)) : Nat → Option (Nat × Option Bool)) "h" 7 none
    (fun _ => (5 : Int)) _ rfl rfl (by decide)
    (Relation.ReflTransGen.head
      (GStep.issueCreate _ 0 5 rfl rfl (by decide))
      (Relation.ReflTransGen.head
        (GStep.resolveFactory _ 0 5 0 7 none (by decide) (by decide) rfl)
        (Relation.ReflTransGen.single
          (GStep.trimStep _ 0 5 7 (by decide) (by decide)))))
    (by decide)
  exact ⟨rfl, rfl, by decide, happ.1, happ.2 0⟩

end Caching
